import Mathlib

/-!
Verification of the hathitrust-ef-project pipeline.

The development shallowly embeds the two core components of the repository:

* the page segmenter and text cleaner of scripts/process_ht_fulltext.py
  (functions format_text and process_text_to_csv), modelled on character
  lists; and
* the table aligner of scripts/combine_dataFiles.py (function
  combine_csv_files), modelled on tables of optional string cells, where
  a missing cell (Option.none) plays the role of a pandas NaN.

File I/O, network access and argument parsing are outside the model: the
embedded functions consume and produce in-memory values.
-/

namespace HT

/-! ## Text cleaning: format_text from process_ht_fulltext.py -/

/-- The paragraph-break placeholder string from format_text, as characters. -/
def PB : List Char := "PARAGRAPH_BREAK".data

/-- Whitespace characters stripped by Python str.strip (ASCII subset of the
Python whitespace class, which covers every character this pipeline emits). -/
def pyWs (c : Char) : Bool :=
  c == ' ' || c == '\t' || c == '\n' || c == '\r' || c == '\x0b' || c == '\x0c'

/-- Step 1 of format_text: the regex substitution replacing each maximal run
of two or more newline characters by the placeholder.  The accumulator n
counts pending consecutive newlines already read. -/
def subNlAux : List Char → Nat → List Char
  | [], n => if n = 0 then [] else if n = 1 then ['\n'] else PB
  | c :: cs, n =>
    if c = '\n' then subNlAux cs (n + 1)
    else if n = 0 then c :: subNlAux cs 0
    else if n = 1 then '\n' :: c :: subNlAux cs 0
    else PB ++ c :: subNlAux cs 0

/-- Step 1 of format_text on a whole text. -/
def subNl (l : List Char) : List Char := subNlAux l 0

/-- Step 2 of format_text: replace each remaining newline by a space. -/
def mapNl (l : List Char) : List Char := l.map fun c => if c = '\n' then ' ' else c

/-- Step 3 of format_text: str.replace of the placeholder by two newlines,
scanning left to right over non-overlapping occurrences.  The fuel argument
is at least the length of the list whenever the function is entered through
repPB, so the zero-fuel branch is never taken. -/
def repPBF : Nat → List Char → List Char
  | 0, l => l
  | _ + 1, [] => []
  | fuel + 1, c :: cs =>
    if PB.isPrefixOf (c :: cs) then '\n' :: '\n' :: repPBF fuel ((c :: cs).drop PB.length)
    else c :: repPBF fuel cs

/-- Step 3 of format_text on a whole text. -/
def repPB (l : List Char) : List Char := repPBF l.length l

/-- Step 4 of format_text: the regex substitution collapsing each maximal run
of two or more spaces to a single space.  The flag records a pending space. -/
def colAux : List Char → Bool → List Char
  | [], pending => if pending then [' '] else []
  | c :: cs, pending =>
    if c = ' ' then colAux cs true
    else if pending then ' ' :: c :: colAux cs false
    else c :: colAux cs false

/-- Step 4 of format_text on a whole text. -/
def colSp (l : List Char) : List Char := colAux l false

/-- Remove trailing Python whitespace. -/
def dropEndWs : List Char → List Char
  | [] => []
  | c :: cs =>
    match dropEndWs cs with
    | [] => if pyWs c then [] else [c]
    | r => c :: r

/-- Python str.strip: remove leading and trailing whitespace. -/
def pyStrip (l : List Char) : List Char := dropEndWs (l.dropWhile pyWs)

/-- format_text from process_ht_fulltext.py, on character lists.  The empty
input short-circuits in Python and also yields the empty output here. -/
def format_text (l : List Char) : List Char :=
  pyStrip (colSp (repPB (mapNl (subNl l))))

/-- Newline-run shape of a cleaned text: scanning left to right with the
accumulator n counting the newlines of the current run, every maximal run of
newline characters must have length exactly two (one paragraph break).  A
run of length one is a stray line-wrap newline; a run of length three or
more renders as two or more consecutive blank lines. -/
def goodAux : List Char → Nat → Bool
  | [], n => n == 0 || n == 2
  | c :: cs, n =>
    if c = '\n' then goodAux cs (n + 1)
    else (n == 0 || n == 2) && goodAux cs 0

/-- Every maximal newline run of the list has length exactly two. -/
def good (l : List Char) : Bool := goodAux l 0

/-! ## Page segmentation: process_text_to_csv from process_ht_fulltext.py -/

/-- The fixed leading part of the separator regex: the literal characters
hash hash space p, an optional dot, then a mandatory space.  Returns the
remaining characters after the mandatory space.  The regex engine would try
the dot first and backtrack, but since the dot branch and the dot-free
branch demand different characters at the same position, at most one can
succeed and the translation is deterministic. -/
def matchLead : List Char → Option (List Char)
  | '#' :: '#' :: ' ' :: 'p' :: '.' :: ' ' :: r => some r
  | '#' :: '#' :: ' ' :: 'p' :: ' ' :: r => some r
  | _ => none

/-- Character class of the label group: anything except parenthesis or hash. -/
def notParenHash (c : Char) : Bool := !(c == '(' || c == '#')

/-- Character test for a hash. -/
def isHash (c : Char) : Bool := c == '#'

/-- The character class of the regex escape backslash-d: Python's re module
matches every Unicode decimal digit (category Nd), not only the ASCII
digits.  The embedding covers the ASCII run together with the Nd blocks
listed below; Nd has further ten-character blocks, each behaving exactly
like these: the claims below use only that every block member is accepted
by the separator scan while the numeric coercion of the aligner accepts the
ASCII digits alone. -/
def pyDigit (c : Char) : Bool :=
  c.isDigit
    || (0x660 ≤ c.toNat && c.toNat ≤ 0x669)
    || (0x6F0 ≤ c.toNat && c.toNat ≤ 0x6F9)
    || (0x966 ≤ c.toNat && c.toNat ≤ 0x96F)
    || (0x9E6 ≤ c.toNat && c.toNat ≤ 0x9EF)
    || (0xE50 ≤ c.toNat && c.toNat ≤ 0xE59)
    || (0xFF10 ≤ c.toNat && c.toNat ≤ 0xFF19)

/-- The literal open-parenthesis hash following the label group. -/
def afterLabel : List Char → Option (List Char)
  | '(' :: '#' :: r2 => some r2
  | _ => none

/-- The literal close-parenthesis space following the digits group. -/
def afterDigits : List Char → Option (List Char)
  | ')' :: ' ' :: r3 => some r3
  | _ => none

/-- One attempt to match the separator regex at the head of the list.
On success returns the label group, the sequence-number group, and the
remaining characters after the match.  The sequence group is the pattern's
one-or-more repetition of the Unicode decimal digit class pyDigit.  Every
quantifier in the pattern is followed by a character it can never match, so
greedy matching without backtracking is exact. -/
def sepAt (l : List Char) : Option (List Char × List Char × List Char) :=
  (matchLead l).bind fun r1 =>
    let label := r1.takeWhile notParenHash
    (afterLabel (r1.dropWhile notParenHash)).bind fun r2 =>
      let ds := r2.takeWhile pyDigit
      if ds.isEmpty then none
      else
        (afterDigits (r2.dropWhile pyDigit)).bind fun r3 =>
          if 30 ≤ (r3.takeWhile isHash).length then
            some (label, ds, r3.dropWhile isHash)
          else none

/-- One separator match: start offset, end offset, and the two captured
groups (label, sequence number). -/
structure Sep where
  start : Nat
  stop : Nat
  label : List Char
  seq : List Char
deriving DecidableEq

instance : Inhabited Sep := ⟨⟨0, 0, [], []⟩⟩

/-- The scan of re.finditer: leftmost matches, non-overlapping, resuming
after the end of each match.  The fuel argument is at least the length of
the list whenever the function is entered through finditer. -/
def finditerF : Nat → List Char → Nat → List Sep
  | 0, _, _ => []
  | _ + 1, [], _ => []
  | fuel + 1, c :: cs, pos =>
    match sepAt (c :: cs) with
    | some (label, ds, rest) =>
      let len := (c :: cs).length - rest.length
      { start := pos, stop := pos + len, label := label, seq := ds }
        :: finditerF fuel rest (pos + len)
    | none => finditerF fuel cs (pos + 1)

/-- All separator matches of the text, in document order. -/
def finditer (l : List Char) : List Sep := finditerF l.length l 0

/-- One output record of the page segmenter: sequence number, raw page text,
cleaned page text. -/
structure PageRec where
  page : List Char
  text : List Char
  clean : List Char
deriving DecidableEq

/-- Python slicing text[a:b] on character lists. -/
def sliceL (l : List Char) (a b : Nat) : List Char := (l.drop a).take (b - a)

/-- The end position of the text span of match i: the start of match i+1,
or the end of the document for the last match. -/
def endPosOf (text : List Char) (seps : List Sep) (i : Nat) : Nat :=
  match seps[i + 1]? with
  | some s2 => s2.start
  | none => text.length

/-- The record-building loop of process_text_to_csv: for match i the page
content spans from the end of match i to the end position of match i,
stripped of surrounding whitespace before storage and before cleaning. -/
def pageRecords (text : List Char) (seps : List Sep) : List PageRec :=
  (List.range seps.length).map fun i =>
    let s := (seps[i]?).getD default
    let content := pyStrip (sliceL text s.stop (endPosOf text seps i))
    { page := s.seq, text := content, clean := format_text content }

/-- process_text_to_csv from process_ht_fulltext.py: the error result models
the early return when no separator matches, and the ok result carries the
page records (the CSV serialization itself is outside the model). -/
def process_text_to_csv (text : List Char) :
    Except String (List PageRec) :=
  let seps := finditer text
  if seps.isEmpty then
    Except.error "Error: No page separators found in the text file. Check the format."
  else Except.ok (pageRecords text seps)

/-- A separator line in the format documented by the specification: the
fixed prefix, a label, the parenthesized sequence token, a space, and a
trailing run of n hash characters.  This definition follows the words of
the specification and is compared against the recognizer embedded from the
source. -/
def specSepLine (label seq : List Char) (n : Nat) : List Char :=
  "## p. ".data ++ label ++ "(#".data ++ seq ++ ") ".data ++ List.replicate n '#'

/-- The two-page demonstration document of the specification. -/
def demoText : List Char :=
  "## p. 1 (#1) ".data ++ List.replicate 30 '#' ++
    "\nHello\nworld\n\nNext para.\n## p. 2 (#2) ".data ++ List.replicate 30 '#' ++
    "\nPage two.".data

/-! ## Table alignment: combine_csv_files from combine_dataFiles.py

Tables model pandas DataFrames holding CSV data: a list of column names and
rows of cells, each cell an optional string where Option.none models a
missing value (NaN).  pd.merge with how set to outer joins on the page
column and, as documented for outer joins, emits the union of the keys in
lexicographically sorted order; sorting is modelled as a stable sort.
Numeric literals handled by pd.to_numeric are modelled as optionally signed
decimal integers, the numeric domain of the page keys of this pipeline. -/

/-- A cell: none models a pandas missing value (NaN). -/
abbrev Cell := Option String

/-- A data table (a DataFrame): column names and rows of cells. -/
structure Table where
  cols : List String
  rows : List (List Cell)
deriving DecidableEq

/-- Well-formedness: every row has exactly one cell per column. -/
def Wf (t : Table) : Prop := ∀ r ∈ t.rows, r.length = t.cols.length

instance (t : Table) : Decidable (Wf t) := by unfold Wf; infer_instance

/-- Index of the first column with the given name. -/
def colIdx : List String → String → Option Nat
  | [], _ => none
  | c :: cs, d => if c = d then some 0 else (colIdx cs d).map (· + 1)

/-- The cell of a row under the column with the given name (none when the
column does not exist). -/
def getCell (cols : List String) (row : List Cell) (c : String) : Cell :=
  match colIdx cols c with
  | some i => row.getD i none
  | none => none

/-- The page key of a row of a table. -/
def pageOf (t : Table) (r : List Cell) : Cell := getCell t.cols r "page"

/-- The page keys of a table, in row order. -/
def keysOf (t : Table) : List Cell := t.rows.map (pageOf t)

/-- Lexicographic comparison of character lists by code point, as Python
compares strings. -/
def clistLe : List Char → List Char → Bool
  | [], _ => true
  | _ :: _, [] => false
  | a :: as, b :: bs =>
    if a.toNat < b.toNat then true
    else if b.toNat < a.toNat then false
    else clistLe as bs

theorem clistLe_cons {x y : Char} {xs ys : List Char} :
    clistLe (x :: xs) (y :: ys) = true ↔
      x.toNat < y.toNat ∨ (x.toNat = y.toNat ∧ clistLe xs ys = true) := by
  simp only [clistLe]
  split
  · rename_i h; simp [h]
  · split
    · rename_i h1 h2
      simp only [Bool.false_eq_true, false_iff]
      rintro (h | ⟨h, -⟩) <;> omega
    · rename_i h1 h2
      have hxy : x.toNat = y.toNat := by omega
      simp [hxy]

theorem clistLe_total (a b : List Char) : clistLe a b = true ∨ clistLe b a = true := by
  induction a generalizing b with
  | nil => left; rfl
  | cons x xs ih =>
    cases b with
    | nil => right; rfl
    | cons y ys =>
      rcases Nat.lt_trichotomy x.toNat y.toNat with h | h | h
      · left; exact clistLe_cons.mpr (Or.inl h)
      · rcases ih ys with h4 | h4
        · left; exact clistLe_cons.mpr (Or.inr ⟨h, h4⟩)
        · right; exact clistLe_cons.mpr (Or.inr ⟨h.symm, h4⟩)
      · right; exact clistLe_cons.mpr (Or.inl h)

theorem clistLe_trans {a b c : List Char} (h1 : clistLe a b = true)
    (h2 : clistLe b c = true) : clistLe a c = true := by
  induction a generalizing b c with
  | nil => rfl
  | cons x xs ih =>
    cases b with
    | nil => simp [clistLe] at h1
    | cons y ys =>
      cases c with
      | nil => simp [clistLe] at h2
      | cons z zs =>
        rcases clistLe_cons.mp h1 with hx | ⟨hx, hx2⟩ <;>
          rcases clistLe_cons.mp h2 with hy | ⟨hy, hy2⟩
        · exact clistLe_cons.mpr (Or.inl (by omega))
        · exact clistLe_cons.mpr (Or.inl (by omega))
        · exact clistLe_cons.mpr (Or.inl (by omega))
        · exact clistLe_cons.mpr (Or.inr ⟨by omega, ih hx2 hy2⟩)

theorem clistLe_refl (a : List Char) : clistLe a a = true := by
  induction a with
  | nil => rfl
  | cons x xs ih => exact clistLe_cons.mpr (Or.inr ⟨rfl, ih⟩)

/-- Ordering of key cells used for the sorted key output of an outer merge
and for sort_values on a string-typed page column: lexicographic on the
strings, missing values last. -/
def cellLe (a b : Cell) : Prop :=
  match a, b with
  | none, none => True
  | none, some _ => False
  | some _, none => True
  | some x, some y => clistLe x.data y.data = true

instance : DecidableRel cellLe := fun a b =>
  match a, b with
  | none, none => isTrue trivial
  | none, some _ => isFalse fun h => h
  | some _, none => isTrue trivial
  | some x, some y => inferInstanceAs (Decidable (clistLe x.data y.data = true))

instance : IsTotal Cell cellLe :=
  ⟨by
    intro a b
    cases a <;> cases b <;> simp [cellLe]
    exact clistLe_total _ _⟩

instance : IsTrans Cell cellLe :=
  ⟨by
    intro a b c hab hbc
    cases a <;> cases b <;> cases c <;> simp_all [cellLe]
    exact clistLe_trans hab hbc⟩

theorem cellLe_refl (a : Cell) : cellLe a a := by
  cases a <;> simp [cellLe, clistLe_refl]

/-- The distinct page keys of both tables, lexicographically sorted, as an
outer merge emits them. -/
def sortedKeys (t1 t2 : Table) : List Cell :=
  List.insertionSort cellLe ((keysOf t1 ++ keysOf t2).dedup)

/-- A row of the right table without its page cell. -/
def stripPage (cols : List String) (r : List Cell) : List Cell :=
  ((cols.zip r).filter fun p => p.1 != "page").map Prod.snd

/-- A left-side stub row for a key present only on the right: the key under
the page column, missing values elsewhere. -/
def leftFill (cols : List String) (k : Cell) : List Cell :=
  cols.map fun c => if c = "page" then k else none

/-- The merged rows contributed by one key: the product of the matching rows
when the key occurs on both sides (left-major order), or the rows of the one
side holding the key padded with missing values on the other side. -/
def rowsForKey (t1 t2 : Table) (k : Cell) : List (List Cell) :=
  let m1 := t1.rows.filter fun r => pageOf t1 r == k
  let m2 := t2.rows.filter fun r => pageOf t2 r == k
  if m1.isEmpty then
    m2.map fun r2 => leftFill t1.cols k ++ stripPage t2.cols r2
  else if m2.isEmpty then
    m1.map fun r1 => r1 ++ List.replicate (t2.cols.filter (· != "page")).length none
  else
    m1.flatMap fun r1 => m2.map fun r2 => r1 ++ stripPage t2.cols r2

/-- pd.merge on the page column with how set to outer: columns of the left
table followed by the non-key columns of the right table; one block of rows
per distinct key, keys in ascending order.  For object-dtype keys pandas
ascends lexicographically, the order used here; for numeric keys it ascends
numerically, and every claim below reads the numeric-regime merge output
only through the subsequent always-successful numeric sort or through its
row multiset or row count, none of which depends on the enumeration order
chosen here. -/
def outerMerge (t1 t2 : Table) : Table :=
  ⟨t1.cols ++ t2.cols.filter (· != "page"),
   (sortedKeys t1 t2).flatMap (rowsForKey t1 t2)⟩

/-- The sentinel replacement of combine_csv_files: in every non-page column
of the extracted-features table, the literal text No body data becomes a
missing value. -/
def replaceNoBody (t : Table) : Table :=
  ⟨t.cols,
   t.rows.map fun r => (t.cols.zip r).map fun p =>
     if p.1 ≠ "page" ∧ p.2 = some "No body data" then none else p.2⟩

/-- The collision step of combine_csv_files: rename the first non-page
column (df.rename renames every column bearing that name). -/
def renameFirst (t : Table) (pre : String) (nonPage : List String) : Table :=
  match nonPage with
  | [] => t
  | c :: _ => ⟨t.cols.map fun d => if d = c then pre ++ c else d, t.rows⟩

/-- The preprocessing of combine_csv_files before the merge: sentinel
replacement on the second table, then the defensive renaming applied to
both tables when the combined non-page column names contain a duplicate. -/
def prep (df1 df2 : Table) : Table × Table :=
  let d2 := replaceNoBody df2
  let cols1 := df1.cols.filter (· != "page")
  let cols2 := d2.cols.filter (· != "page")
  if (cols1 ++ cols2).Nodup then (df1, d2)
  else (renameFirst df1 "file1_" cols1, renameFirst d2 "file2_" cols2)

/-- The outer merge produced inside combine_csv_files, before the sort. -/
def mergedOf (df1 df2 : Table) : Table :=
  outerMerge (prep df1 df2).1 (prep df1 df2).2

/-- A nonempty all-digit numeral, read as a natural number. -/
def parseDigits (ds : List Char) : Option Int :=
  if ds ≠ [] ∧ ds.all Char.isDigit then
    some (Int.ofNat (ds.foldl (fun n c => n * 10 + (c.toNat - '0'.toNat)) 0))
  else none

/-- Optionally signed decimal integer literal, the modelled numeric domain
of pd.to_numeric on page keys. -/
def parseIntStr (l : List Char) : Option Int :=
  match l with
  | [] => none
  | c :: cs =>
    if c = '-' then (parseDigits cs).map (fun i => -i)
    else if c = '+' then parseDigits cs
    else parseDigits (c :: cs)

/-- Success of pd.to_numeric on one key cell (a missing value stays missing
and does not fail). -/
def numericOk (k : Cell) : Bool :=
  match k with
  | none => true
  | some s => (parseIntStr s.data).isSome

/-- The canonical numeric rewriting of one page cell performed by the
assignment of pd.to_numeric back into the page column. -/
def canonCell (c : Cell) : Cell := c.bind fun s => (parseIntStr s.data).map toString

/-- The page column rewritten cell by cell. -/
def mapPage (t : Table) (f : Cell → Cell) : Table :=
  ⟨t.cols,
   t.rows.map fun r => (t.cols.zip r).map fun p =>
     if p.1 = "page" then f p.2 else p.2⟩

/-- The numeric value of the page key of a row. -/
def keyNum (cols : List String) (r : List Cell) : Option Int :=
  (getCell cols r "page").bind fun s => parseIntStr s.data

/-- Numeric ordering with missing values last. -/
def numLe (a b : Option Int) : Prop :=
  match a, b with
  | none, none => True
  | none, some _ => False
  | some _, none => True
  | some x, some y => x ≤ y

instance : DecidableRel numLe := fun a b =>
  match a, b with
  | none, none => isTrue trivial
  | none, some _ => isFalse fun h => h
  | some _, none => isTrue trivial
  | some x, some y => inferInstanceAs (Decidable (x ≤ y))

/-- Row ordering by numeric page key. -/
def rowLeNum (cols : List String) (r1 r2 : List Cell) : Prop :=
  numLe (keyNum cols r1) (keyNum cols r2)

instance (cols : List String) : DecidableRel (rowLeNum cols) := fun _ _ =>
  inferInstanceAs (Decidable (numLe _ _))

/-- Row ordering by string page key. -/
def rowLeStr (cols : List String) (r1 r2 : List Cell) : Prop :=
  cellLe (getCell cols r1 "page") (getCell cols r2 "page")

instance (cols : List String) : DecidableRel (rowLeStr cols) := fun _ _ =>
  inferInstanceAs (Decidable (cellLe _ _))

/-- The sort step of combine_csv_files: pd.to_numeric over the whole page
column followed by sort_values succeeds only as a whole; when every key
coerces, the page column is rewritten to the canonical numeric form and the
rows are sorted numerically, and when any key fails the assignment never
happens and the except branch sorts the unchanged rows by the string keys.
sort_values uses a non-stable quicksort by default, so the program does not
fix the relative order of rows with equal keys; the embedding uses a stable
insertion sort, and every claim below about the sorted row order carries
duplicate-free-key hypotheses under which all comparison sorts coincide,
while the remaining claims use only the row multiset or the row count,
which any sorting permutation realizes. -/
def sortStep (t : Table) : Table :=
  if (keysOf t).all numericOk then
    let t2 := mapPage t canonCell
    ⟨t2.cols, List.insertionSort (rowLeNum t2.cols) t2.rows⟩
  else ⟨t.cols, List.insertionSort (rowLeStr t.cols) t.rows⟩

/-- The content of a row: the unordered collection of column-value pairs. -/
def rowContent (cols : List String) (r : List Cell) : Multiset (String × Cell) :=
  (cols.zip r : List (String × Cell))

/-- The content of a table: the unordered collection of its row contents. -/
def tableContent (t : Table) : Multiset (Multiset (String × Cell)) :=
  (t.rows.map fun r => rowContent t.cols r : List (Multiset (String × Cell)))

/-- The action of a page-cell rewriting on one column-value pair. -/
def pairMapPage (f : Cell → Cell) (p : String × Cell) : String × Cell :=
  if p.1 = "page" then (p.1, f p.2) else p

/-- The dataframe stage of combine_csv_files from combine_dataFiles.py: the
sentinel replacement, the defensive renaming, the outer merge and the sort,
on two in-memory tables whose page columns carry compatible dtypes.  The
error result models the uncaught KeyError that pd.merge raises when either
input lacks the page column.  The claims about sentinel handling, the
missing key and the output row count are parametric in the representation
of the keys and are stated at this level; combine_csv_files_run below adds
the pd.read_csv stage with its dtype inference and the dtype-mismatch error
of the merge.  Reading errors, writing and file naming are outside the
model. -/
def combine_csv_files (df1 df2 : Table) : Except String Table :=
  let p := prep df1 df2
  if "page" ∈ p.1.cols ∧ "page" ∈ p.2.cols then
    Except.ok (sortStep (outerMerge p.1 p.2))
  else Except.error "KeyError: page"

/-- pd.read_csv dtype inference on the page column of one input file: the
column is numeric exactly when it is nonempty and every key parses as an
integer (a blank cell reads as a missing value and keeps the column
numeric, which numericOk mirrors).  The modelled numeric domain is the
optionally signed integer literals of parseIntStr, the only numeric page
keys the upstream segmenter emits; files with fractional page keys are
outside the modelled input class. -/
def pageDtypeNumeric (t : Table) : Bool :=
  !t.rows.isEmpty && (keysOf t).all numericOk

/-- The dataframe pd.read_csv yields for one input file: when the page
column infers numeric, its values are the parsed integers, which the
embedding carries as their canonical decimal spellings; otherwise the cells
stay verbatim strings. -/
def readCsv (t : Table) : Table :=
  if pageDtypeNumeric t then mapPage t canonCell else t

/-- combine_csv_files from combine_dataFiles.py, from the pd.read_csv calls
onward.  After dtype inference, pd.merge raises an uncaught KeyError when
either frame lacks the page column, and otherwise an uncaught ValueError
when one page column inferred numeric and the other object; only when the
dtypes agree does the run reach the merge-and-sort stage. -/
def combine_csv_files_run (f1 f2 : Table) : Except String Table :=
  let df1 := readCsv f1
  let df2 := readCsv f2
  let p := prep df1 df2
  if "page" ∈ p.1.cols ∧ "page" ∈ p.2.cols then
    if pageDtypeNumeric f1 = pageDtypeNumeric f2 then
      Except.ok (sortStep (outerMerge p.1 p.2))
    else Except.error "ValueError: merging on object and int64 page columns"
  else Except.error "KeyError: page"

/-- No non-key cell of the table holds the sentinel string, so the sentinel
replacement of the second input is a no-op on it. -/
def noSentinel (t : Table) : Prop :=
  ∀ r ∈ t.rows, ∀ p ∈ t.cols.zip r, p.1 ≠ "page" → p.2 ≠ some "No body data"

instance (t : Table) : Decidable (noSentinel t) := by
  unfold noSentinel
  infer_instance

end HT

deriving instance DecidableEq for Except

section Sanity

open HT

example : subNl "a\n\nb".data = "a".data ++ PB ++ "b".data := by decide

example : format_text "Hello\nworld\n\nNext  para.".data = "Hello world\n\nNext para.".data := by
  decide

example :
    (finditer ("## p. xiv (#20) ".data ++ List.replicate 30 '#' ++ "\nHello".data)).length
      = 1 := by decide

example : finditer "hello".data = [] := by decide

example :
    combine_csv_files
      ⟨["page", "text"], [[some "2", some "a"], [some "1", some "b"]]⟩
      ⟨["page", "words"], [[some "2", some "5"], [some "3", some "No body data"]]⟩
      = Except.ok
          ⟨["page", "text", "words"],
           [[some "1", some "b", none],
            [some "2", some "a", some "5"],
            [some "3", none, none]]⟩ := by decide

example :
    combine_csv_files
      ⟨["page", "text"], [[some "2", some "a"], [some "ii", some "b"]]⟩
      ⟨["page", "words"], [[some "2", some "5"]]⟩
      = Except.ok
          ⟨["page", "text", "words"],
           [[some "2", some "a", some "5"],
            [some "ii", some "b", none]]⟩ := by decide

example :
    combine_csv_files ⟨["q"], [[some "1"]]⟩ ⟨["page"], [[some "1"]]⟩
      = Except.error "KeyError: page" := by decide

example :
    combine_csv_files_run
      ⟨["page", "text"], [[some "2", some "a"], [some "ii", some "b"]]⟩
      ⟨["page", "words"], [[some "2", some "5"]]⟩
      = Except.error "ValueError: merging on object and int64 page columns" := by
  decide

example :
    combine_csv_files_run
      ⟨["page", "text"], [[some "2", some "a"], [some "ii", some "b"]]⟩
      ⟨["page", "words"], [[some "2", some "5"], [some "iv", some "7"]]⟩
      = Except.ok
          ⟨["page", "text", "words"],
           [[some "2", some "a", some "5"],
            [some "ii", some "b", none],
            [some "iv", none, some "7"]]⟩ := by decide

example :
    combine_csv_files_run
      ⟨["page", "text"], [[some "2", some "a"], [some "1", some "b"]]⟩
      ⟨["page", "words"], [[some "2", some "5"], [some "3", some "No body data"]]⟩
      = Except.ok
          ⟨["page", "text", "words"],
           [[some "1", some "b", none],
            [some "2", some "a", some "5"],
            [some "3", none, none]]⟩ := by decide

example :
    combine_csv_files_run
      ⟨["page", "text"], [[some "01", some "a"]]⟩
      ⟨["page", "words"], [[some "1", some "5"]]⟩
      = Except.ok ⟨["page", "text", "words"], [[some "1", some "a", some "5"]]⟩ := by
  decide

end Sanity

namespace HT

/-! ## Supporting lemmas for the table aligner -/

theorem cols_replaceNoBody (t : Table) : (replaceNoBody t).cols = t.cols := rfl

theorem prefixed_ne_page (pre c : String) (h : pre.data.length = 6) :
    pre ++ c ≠ "page" := by
  intro hc
  have hd : (pre ++ c).data = "page".data := by rw [hc]
  rw [String.data_append] at hd
  have := congrArg List.length hd
  simp [h] at this
  omega

theorem mem_page_renameFirst (t : Table) (pre : String) (np : List String)
    (hnp : ∀ c ∈ np, c ≠ "page") (hpre : pre.data.length = 6) :
    "page" ∈ (renameFirst t pre np).cols ↔ "page" ∈ t.cols := by
  match np with
  | [] => rfl
  | c :: rest =>
    simp only [renameFirst, List.mem_map]
    constructor
    · rintro ⟨d, hd, hfd⟩
      by_cases hdc : d = c
      · rw [if_pos hdc] at hfd
        exact absurd hfd (prefixed_ne_page pre c hpre)
      · rw [if_neg hdc] at hfd
        exact hfd ▸ hd
    · intro hmem
      refine ⟨"page", hmem, ?_⟩
      rw [if_neg]
      intro hc
      exact hnp c (List.mem_cons_self c rest) hc.symm

theorem mem_page_prep_fst (df1 df2 : Table) :
    "page" ∈ (prep df1 df2).1.cols ↔ "page" ∈ df1.cols := by
  simp only [prep]
  split
  · rfl
  · rw [mem_page_renameFirst]
    · intro c hc
      have := List.of_mem_filter hc
      simpa using this
    · rfl

theorem mem_page_prep_snd (df1 df2 : Table) :
    "page" ∈ (prep df1 df2).2.cols ↔ "page" ∈ df2.cols := by
  simp only [prep]
  split
  · exact Iff.rfl
  · rw [mem_page_renameFirst]
    · exact Iff.rfl
    · intro c hc
      have := List.of_mem_filter hc
      simpa using this
    · rfl

theorem colIdx_lt {cols : List String} {c : String} {i : Nat}
    (h : colIdx cols c = some i) : i < cols.length := by
  induction cols generalizing i with
  | nil => simp [colIdx] at h
  | cons d ds ih =>
    simp only [colIdx] at h
    split at h
    · cases h; simp
    · cases hm : colIdx ds c with
      | none => rw [hm] at h; simp at h
      | some j =>
        rw [hm] at h
        simp at h
        have := ih hm
        simp
        omega

theorem colIdx_get {cols : List String} {c : String} {i : Nat}
    (h : colIdx cols c = some i) : cols.getD i "" = c := by
  induction cols generalizing i with
  | nil => simp [colIdx] at h
  | cons d ds ih =>
    simp only [colIdx] at h
    split at h
    · rename_i hd; cases h; simpa using hd
    · cases hm : colIdx ds c with
      | none => rw [hm] at h; simp at h
      | some j =>
        rw [hm] at h
        simp at h
        rw [← h]
        simpa using ih hm

theorem colIdx_append_left {cols cols2 : List String} {c : String} {i : Nat}
    (h : colIdx cols c = some i) : colIdx (cols ++ cols2) c = some i := by
  induction cols generalizing i with
  | nil => simp [colIdx] at h
  | cons d ds ih =>
    by_cases hd : d = c
    · simp only [colIdx, if_pos hd] at h
      simp only [List.cons_append, colIdx, if_pos hd]
      exact h
    · simp only [colIdx, if_neg hd] at h
      simp only [List.cons_append, colIdx, if_neg hd]
      cases hm : colIdx ds c with
      | none => rw [hm] at h; simp at h
      | some j =>
        rw [hm] at h
        show Option.map (fun x => x + 1) (colIdx (ds ++ cols2) c) = some i
        rw [ih hm]
        simpa using h

theorem colIdx_isSome_of_mem {cols : List String} {c : String} (h : c ∈ cols) :
    ∃ i, colIdx cols c = some i := by
  induction cols with
  | nil => simp at h
  | cons d ds ih =>
    by_cases hd : d = c
    · exact ⟨0, by simp [colIdx, hd]⟩
    · have hmem : c ∈ ds := by
        rcases List.mem_cons.mp h with h1 | h1
        · exact absurd h1.symm hd
        · exact h1
      rcases ih hmem with ⟨j, hj⟩
      exact ⟨j + 1, by simp [colIdx, hd, hj]⟩

theorem getCell_eq {cols : List String} {row : List Cell} {c : String}
    {i : Nat} (h : colIdx cols c = some i) :
    getCell cols row c = row.getD i none := by
  unfold getCell
  rw [h]

theorem getCell_append_left {cols1 cols2 : List String} {row1 row2 : List Cell}
    {c : String} (hw : row1.length = cols1.length) (hc : c ∈ cols1) :
    getCell (cols1 ++ cols2) (row1 ++ row2) c = getCell cols1 row1 c := by
  obtain ⟨i, hi⟩ := colIdx_isSome_of_mem hc
  have hlt : i < row1.length := by rw [hw]; exact colIdx_lt hi
  rw [getCell_eq (colIdx_append_left hi), getCell_eq hi,
    List.getD_append _ _ _ _ hlt]

theorem getCell_leftFill_page {cols : List String} (k : Cell)
    (hc : "page" ∈ cols) : getCell cols (leftFill cols k) "page" = k := by
  obtain ⟨i, hi⟩ := colIdx_isSome_of_mem hc
  have hlt : i < cols.length := colIdx_lt hi
  have hget := colIdx_get hi
  have hcol : cols[i] = "page" := by
    rw [← hget]
    simp [List.getD_eq_getElem?_getD, List.getElem?_eq_getElem hlt]
  unfold leftFill
  rw [getCell_eq hi]
  rw [List.getD_eq_getElem?_getD, List.getElem?_map, List.getElem?_eq_getElem hlt]
  simp [hcol]

theorem pageOf_rowsForKey {t1 t2 : Table} (w1 : Wf t1) (h1 : "page" ∈ t1.cols)
    {k : Cell} {r : List Cell} (hr : r ∈ rowsForKey t1 t2 k) :
    getCell (t1.cols ++ t2.cols.filter (· != "page")) r "page" = k := by
  simp only [rowsForKey] at hr
  split at hr
  · obtain ⟨r2, hr2, hre⟩ := List.mem_map.mp hr
    subst hre
    rw [getCell_append_left (by simp [leftFill]) h1]
    exact getCell_leftFill_page k h1
  · split at hr
    · obtain ⟨r1, hr1, hre⟩ := List.mem_map.mp hr
      subst hre
      have hr1m := List.mem_filter.mp hr1
      rw [getCell_append_left (w1 _ hr1m.1) h1]
      have := hr1m.2
      simp only [beq_iff_eq] at this
      exact this
    · obtain ⟨r1, hr1, hin⟩ := List.mem_flatMap.mp hr
      obtain ⟨r2, hr2, hre⟩ := List.mem_map.mp hin
      subst hre
      have hr1m := List.mem_filter.mp hr1
      rw [getCell_append_left (w1 _ hr1m.1) h1]
      have := hr1m.2
      simp only [beq_iff_eq] at this
      exact this

theorem merged_sorted {t1 t2 : Table} (w1 : Wf t1) (h1 : "page" ∈ t1.cols) :
    List.Sorted (rowLeStr (t1.cols ++ t2.cols.filter (· != "page")))
      ((sortedKeys t1 t2).flatMap (rowsForKey t1 t2)) := by
  unfold List.Sorted
  rw [List.pairwise_flatMap]
  constructor
  · intro k hk
    apply List.pairwise_of_forall_mem_list
    intro a ha b hb
    unfold rowLeStr
    rw [pageOf_rowsForKey w1 h1 ha, pageOf_rowsForKey w1 h1 hb]
    exact cellLe_refl k
  · have hsorted : List.Sorted cellLe (sortedKeys t1 t2) :=
      List.sorted_insertionSort _ _
    apply List.Pairwise.imp ?_ hsorted
    intro k1 k2 hk x hx y hy
    unfold rowLeStr
    rw [pageOf_rowsForKey w1 h1 hx, pageOf_rowsForKey w1 h1 hy]
    exact hk

theorem length_flatMap_eq {α β : Type} (l : List α) (f : α → List β) :
    (l.flatMap f).length = (l.map fun a => (f a).length).sum := by
  induction l with
  | nil => rfl
  | cons a as ih => simp [List.flatMap_cons, ih]

theorem filter_beq_length_le_one {α β : Type} [BEq β] [LawfulBEq β]
    (f : α → β) (l : List α) (h : (l.map f).Nodup) (k : β) :
    (l.filter fun a => f a == k).length ≤ 1 := by
  induction l with
  | nil => simp
  | cons a as ih =>
    rw [List.map_cons, List.nodup_cons] at h
    by_cases hk : f a = k
    · rw [List.filter_cons_of_pos (by simpa using hk)]
      have hrest : (as.filter fun b => f b == k).length = 0 := by
        rw [List.length_eq_zero, List.filter_eq_nil_iff]
        intro b hb hbk
        apply h.1
        rw [List.mem_map]
        exact ⟨b, hb, by rw [eq_of_beq hbk, hk]⟩
      simp [hrest]
    · rw [List.filter_cons_of_neg (by simpa using hk)]
      exact ih h.2

theorem filter_beq_length_pos {α β : Type} [BEq β] [LawfulBEq β]
    (f : α → β) (l : List α) (k : β) (h : k ∈ l.map f) :
    0 < (l.filter fun a => f a == k).length := by
  obtain ⟨a, ha, hfa⟩ := List.mem_map.mp h
  apply List.length_pos.mpr
  intro hnil
  have : a ∈ l.filter fun a => f a == k :=
    List.mem_filter.mpr ⟨ha, by simpa using hfa⟩
  rw [hnil] at this
  exact absurd this (List.not_mem_nil a)

theorem colIdx_map_page (cols : List String) (f : String → String)
    (hf : ∀ c, f c = "page" ↔ c = "page") :
    colIdx (cols.map f) "page" = colIdx cols "page" := by
  induction cols with
  | nil => rfl
  | cons d ds ih =>
    simp only [List.map_cons, colIdx]
    by_cases hd : d = "page"
    · rw [if_pos ((hf d).mpr hd), if_pos hd]
    · rw [if_neg (fun hc => hd ((hf d).mp hc)), if_neg hd, ih]

theorem keysOf_renameFirst (t : Table) (pre : String) (np : List String)
    (hnp : ∀ c ∈ np, c ≠ "page") (hpre : pre.data.length = 6) :
    keysOf (renameFirst t pre np) = keysOf t := by
  unfold renameFirst
  split
  · rfl
  · rename_i c rest
    have hcnp : c ≠ "page" := hnp c (List.mem_cons_self c rest)
    have hci : colIdx (t.cols.map fun d => if d = c then pre ++ c else d) "page"
        = colIdx t.cols "page" := by
      apply colIdx_map_page
      intro d
      constructor
      · intro hd
        by_cases hdc : d = c
        · rw [if_pos hdc] at hd
          exact absurd hd (prefixed_ne_page pre c hpre)
        · rwa [if_neg hdc] at hd
      · intro hd
        rw [if_neg (fun hdc => hcnp (by rw [← hdc]; exact hd)), hd]
    unfold keysOf pageOf getCell
    simp only [hci]

theorem keysOf_replaceNoBody {t : Table} (w : Wf t) (hp : "page" ∈ t.cols) :
    keysOf (replaceNoBody t) = keysOf t := by
  unfold keysOf replaceNoBody pageOf
  simp only [List.map_map]
  apply List.map_congr_left
  intro r hr
  obtain ⟨i, hi⟩ := colIdx_isSome_of_mem hp
  show getCell t.cols ((t.cols.zip r).map _) "page" = getCell t.cols r "page"
  rw [getCell_eq hi, getCell_eq hi]
  have hlen : r.length = t.cols.length := w r hr
  have hlt : i < t.cols.length := colIdx_lt hi
  have hzlt : i < ((t.cols.zip r).map fun p =>
      if p.1 ≠ "page" ∧ p.2 = some "No body data" then none else p.2).length := by
    simp [List.length_zip, hlen, hlt]
  have hrlt : i < r.length := by omega
  have hcol : t.cols[i] = "page" := by
    have hget := colIdx_get hi
    rw [← hget]
    simp [List.getD_eq_getElem?_getD, List.getElem?_eq_getElem hlt]
  rw [List.getD_eq_getElem?_getD, List.getD_eq_getElem?_getD,
    List.getElem?_eq_getElem hzlt, List.getElem?_eq_getElem hrlt]
  simp only [List.getElem_map, List.getElem_zip, Option.getD_some]
  simp [hcol]

theorem keysOf_prep_fst (df1 df2 : Table) :
    keysOf (prep df1 df2).1 = keysOf df1 := by
  simp only [prep]
  split
  · rfl
  · apply keysOf_renameFirst
    · intro c hc
      simpa using (List.of_mem_filter hc)
    · rfl

theorem keysOf_prep_snd {df1 df2 : Table} (w2 : Wf df2)
    (hp2 : "page" ∈ df2.cols) :
    keysOf (prep df1 df2).2 = keysOf df2 := by
  simp only [prep]
  split
  · exact keysOf_replaceNoBody w2 hp2
  · rw [keysOf_renameFirst (replaceNoBody df2) "file2_" _
      (fun c hc => by simpa using (List.of_mem_filter hc)) rfl]
    exact keysOf_replaceNoBody w2 hp2

theorem rowsForKey_length_one {t1 t2 : Table} (n1 : (keysOf t1).Nodup)
    (n2 : (keysOf t2).Nodup) {k : Cell}
    (hk : k ∈ keysOf t1 ++ keysOf t2) :
    (rowsForKey t1 t2 k).length = 1 := by
  have h1le : (t1.rows.filter fun r => pageOf t1 r == k).length ≤ 1 :=
    filter_beq_length_le_one (pageOf t1) t1.rows n1 k
  have h2le : (t2.rows.filter fun r => pageOf t2 r == k).length ≤ 1 :=
    filter_beq_length_le_one (pageOf t2) t2.rows n2 k
  simp only [rowsForKey]
  split
  · rename_i hm1
    have h10 : (t1.rows.filter fun r => pageOf t1 r == k).length = 0 := by
      rw [List.isEmpty_iff] at hm1
      simp [hm1]
    have hk2 : k ∈ keysOf t2 := by
      rcases List.mem_append.mp hk with h | h
      · have := filter_beq_length_pos (pageOf t1) t1.rows k h
        omega
      · exact h
    have h2ge := filter_beq_length_pos (pageOf t2) t2.rows k hk2
    rw [List.length_map]
    omega
  · split
    · rename_i hm1 hm2
      have h1ge : 0 < (t1.rows.filter fun r => pageOf t1 r == k).length := by
        apply List.length_pos.mpr
        intro hnil
        rw [List.isEmpty_iff] at hm1
        exact hm1 hnil
      rw [List.length_map]
      omega
    · rename_i hm1 hm2
      have h1ge : 0 < (t1.rows.filter fun r => pageOf t1 r == k).length := by
        apply List.length_pos.mpr
        intro hnil
        rw [List.isEmpty_iff] at hm1
        exact hm1 hnil
      have h2ge : 0 < (t2.rows.filter fun r => pageOf t2 r == k).length := by
        apply List.length_pos.mpr
        intro hnil
        rw [List.isEmpty_iff] at hm2
        exact hm2 hnil
      rw [length_flatMap_eq]
      have hmc : ((t1.rows.filter fun r => pageOf t1 r == k).map fun r1 =>
          ((t2.rows.filter fun r => pageOf t2 r == k).map fun r2 =>
            r1 ++ stripPage t2.cols r2).length)
          = (t1.rows.filter fun r => pageOf t1 r == k).map fun _ =>
              (t2.rows.filter fun r => pageOf t2 r == k).length := by
        apply List.map_congr_left
        intro r1 _
        rw [List.length_map]
      rw [hmc, List.map_const', List.sum_replicate, smul_eq_mul]
      have he1 : (t1.rows.filter fun r => pageOf t1 r == k).length = 1 := by omega
      have he2 : (t2.rows.filter fun r => pageOf t2 r == k).length = 1 := by omega
      rw [he1, he2]

theorem merged_rows_length {t1 t2 : Table} (n1 : (keysOf t1).Nodup)
    (n2 : (keysOf t2).Nodup) :
    (outerMerge t1 t2).rows.length
      = ((keysOf t1).toFinset ∪ (keysOf t2).toFinset).card := by
  show ((sortedKeys t1 t2).flatMap (rowsForKey t1 t2)).length = _
  rw [length_flatMap_eq]
  have hone : ∀ k ∈ sortedKeys t1 t2, (rowsForKey t1 t2 k).length = 1 := by
    intro k hk
    apply rowsForKey_length_one n1 n2
    have : k ∈ (keysOf t1 ++ keysOf t2).dedup := by
      simpa [sortedKeys] using hk
    exact List.mem_dedup.mp this
  rw [List.map_congr_left hone, List.map_const', List.sum_replicate, smul_eq_mul,
    mul_one]
  show (sortedKeys t1 t2).length = _
  rw [sortedKeys, List.length_insertionSort]
  rw [← List.toFinset_append]
  rw [List.card_toFinset]

theorem sortStep_length (t : Table) : (sortStep t).rows.length = t.rows.length := by
  unfold sortStep
  split
  · show (List.insertionSort _ (mapPage t _).rows).length = _
    rw [List.length_insertionSort]
    simp [mapPage]
  · show (List.insertionSort _ t.rows).length = _
    rw [List.length_insertionSort]

theorem zip_replicate_pair {α β : Type} (l : List α) (x : β) :
    l.zip (List.replicate l.length x) = l.map fun a => (a, x) := by
  induction l with
  | nil => rfl
  | cons a as ih => simp [List.replicate_succ, ih]

theorem zip_fst_snd {α β : Type} (x : List (α × β)) :
    (x.map Prod.fst).zip (x.map Prod.snd) = x := by
  induction x with
  | nil => rfl
  | cons p ps ih => simp [ih]

theorem map_fst_filter_zip (cols : List String) (r : List Cell)
    (h : r.length = cols.length) :
    ((cols.zip r).filter fun p => p.1 != "page").map Prod.fst
      = cols.filter (· != "page") := by
  induction cols generalizing r with
  | nil => simp
  | cons c cs ih =>
    cases r with
    | nil => simp at h
    | cons x xs =>
      rw [List.zip_cons_cons, List.filter_cons, List.filter_cons]
      have hlen : xs.length = cs.length := by simpa using h
      by_cases hc : (c != "page") = true
      · simp only [hc, if_pos]
        rw [List.map_cons, ih xs hlen]
      · simp only [Bool.not_eq_true] at hc
        simp only [hc, Bool.false_eq_true, if_neg, ite_false]
        exact ih xs hlen

theorem zip_filter_strip (cols : List String) (r : List Cell)
    (h : r.length = cols.length) :
    (cols.filter (· != "page")).zip (stripPage cols r)
      = (cols.zip r).filter fun p => p.1 != "page" := by
  unfold stripPage
  rw [← map_fst_filter_zip cols r h, zip_fst_snd]

theorem getCell_cons_page (cs : List String) (x : Cell) (xs : List Cell) :
    getCell ("page" :: cs) (x :: xs) "page" = x := by
  unfold getCell colIdx
  simp

theorem getCell_cons_ne {c : String} (hc : c ≠ "page") (cs : List String)
    (x : Cell) (xs : List Cell) :
    getCell (c :: cs) (x :: xs) "page" = getCell cs xs "page" := by
  unfold getCell
  have hcol : colIdx (c :: cs) "page" = (colIdx cs "page").map (· + 1) := by
    simp only [colIdx]
    rw [if_neg hc]
  rw [hcol]
  cases h : colIdx cs "page" with
  | none => rfl
  | some j => rfl

theorem content_split (cols : List String) (r : List Cell) (nd : cols.Nodup)
    (hp : "page" ∈ cols) (hlen : r.length = cols.length) :
    (↑(cols.zip r) : Multiset (String × Cell))
      = ("page", getCell cols r "page") ::ₘ
          ↑((cols.zip r).filter fun p => p.1 != "page") := by
  induction cols generalizing r with
  | nil => simp at hp
  | cons c cs ih =>
    cases r with
    | nil => simp at hlen
    | cons x xs =>
      rw [List.nodup_cons] at nd
      have hlen2 : xs.length = cs.length := by simpa using hlen
      by_cases hc : c = "page"
      · subst hc
        rw [List.zip_cons_cons, List.filter_cons]
        rw [if_neg (by simp)]
        rw [getCell_cons_page]
        have hfilter : (cs.zip xs).filter (fun p => p.1 != "page") = cs.zip xs := by
          rw [List.filter_eq_self]
          intro p hpz
          have hmem := (List.of_mem_zip hpz).1
          simp only [bne_iff_ne, ne_eq]
          intro hpe
          exact nd.1 (hpe ▸ hmem)
        rw [hfilter]
        simp
      · have hpcs : "page" ∈ cs := by
          rcases List.mem_cons.mp hp with h | h
          · exact absurd h.symm hc
          · exact h
        rw [List.zip_cons_cons, List.filter_cons]
        rw [if_pos (by simpa using hc)]
        rw [getCell_cons_ne hc]
        rw [← Multiset.cons_coe, ← Multiset.cons_coe]
        rw [ih xs nd.2 hpcs hlen2]
        exact Multiset.cons_swap _ _ _

theorem nones_split (cols : List String) (k : Cell) (nd : cols.Nodup)
    (hp : "page" ∈ cols) :
    (↑(cols.map fun c => (c, if c = "page" then k else none))
        : Multiset (String × Cell))
      = ("page", k) ::ₘ
          ↑((cols.filter (· != "page")).map fun c => (c, (none : Cell))) := by
  induction cols with
  | nil => simp at hp
  | cons c cs ih =>
    rw [List.nodup_cons] at nd
    by_cases hc : c = "page"
    · subst hc
      rw [List.map_cons, if_pos rfl, List.filter_cons]
      rw [if_neg (by simp)]
      have hmap : (cs.map fun c => (c, if c = "page" then k else none))
          = cs.map fun c => (c, (none : Cell)) := by
        apply List.map_congr_left
        intro a ha
        rw [if_neg (fun hh => nd.1 (by rw [← hh]; exact ha))]
      rw [hmap]
      have hfilter : cs.filter (· != "page") = cs := by
        rw [List.filter_eq_self]
        intro a ha
        simp only [bne_iff_ne, ne_eq]
        intro hh
        exact nd.1 (hh ▸ ha)
      rw [hfilter]
      simp
    · have hpcs : "page" ∈ cs := by
        rcases List.mem_cons.mp hp with h | h
        · exact absurd h.symm hc
        · exact h
      rw [List.map_cons, if_neg hc, List.filter_cons, if_pos (by simpa using hc),
        List.map_cons]
      rw [← Multiset.cons_coe, ← Multiset.cons_coe]
      rw [ih nd.2 hpcs]
      exact Multiset.cons_swap _ _ _

theorem stripPage_length {cols : List String} {r : List Cell}
    (h : r.length = cols.length) :
    (stripPage cols r).length = (cols.filter (· != "page")).length := by
  unfold stripPage
  rw [List.length_map, ← map_fst_filter_zip cols r h, List.length_map]

theorem rowContent_pair {t1 t2 : Table} {r1 r2 : List Cell} {k : Cell}
    (h1 : r1.length = t1.cols.length) (h2 : r2.length = t2.cols.length)
    (nd1 : t1.cols.Nodup) (hp1 : "page" ∈ t1.cols)
    (hk : getCell t1.cols r1 "page" = k) :
    rowContent (t1.cols ++ t2.cols.filter (· != "page"))
        (r1 ++ stripPage t2.cols r2)
      = ("page", k) ::ₘ
          (↑((t1.cols.zip r1).filter fun p => p.1 != "page")
            + ↑((t2.cols.zip r2).filter fun p => p.1 != "page")) := by
  unfold rowContent
  rw [List.zip_append h1.symm, ← Multiset.coe_add]
  rw [content_split t1.cols r1 nd1 hp1 h1, hk]
  rw [zip_filter_strip t2.cols r2 h2]
  rw [Multiset.cons_add]

theorem rowContent_leftOnly {t1 t2 : Table} {r1 : List Cell} {k : Cell}
    (h1 : r1.length = t1.cols.length) (nd1 : t1.cols.Nodup)
    (hp1 : "page" ∈ t1.cols) (hk : getCell t1.cols r1 "page" = k) :
    rowContent (t1.cols ++ t2.cols.filter (· != "page"))
        (r1 ++ List.replicate (t2.cols.filter (· != "page")).length none)
      = ("page", k) ::ₘ
          (↑((t1.cols.zip r1).filter fun p => p.1 != "page")
            + ↑((t2.cols.filter (· != "page")).map fun c => (c, (none : Cell)))) := by
  unfold rowContent
  rw [List.zip_append h1.symm, ← Multiset.coe_add]
  rw [content_split t1.cols r1 nd1 hp1 h1, hk]
  rw [zip_replicate_pair]
  rw [Multiset.cons_add]

theorem rowContent_rightOnly {t1 t2 : Table} {r2 : List Cell} (k : Cell)
    (h2 : r2.length = t2.cols.length) (nd1 : t1.cols.Nodup)
    (hp1 : "page" ∈ t1.cols) :
    rowContent (t1.cols ++ t2.cols.filter (· != "page"))
        (leftFill t1.cols k ++ stripPage t2.cols r2)
      = ("page", k) ::ₘ
          (↑((t1.cols.filter (· != "page")).map fun c => (c, (none : Cell)))
            + ↑((t2.cols.zip r2).filter fun p => p.1 != "page")) := by
  unfold rowContent
  rw [List.zip_append (by simp [leftFill]), ← Multiset.coe_add]
  rw [show t1.cols.zip (leftFill t1.cols k)
      = t1.cols.map fun c => (c, if c = "page" then k else none) from
    (List.map_prod_left_eq_zip _).symm]
  rw [nones_split t1.cols k nd1 hp1]
  rw [zip_filter_strip t2.cols r2 h2]
  rw [Multiset.cons_add]

theorem wf_outerMerge {t1 t2 : Table} (w1 : Wf t1) (w2 : Wf t2) :
    Wf (outerMerge t1 t2) := by
  intro r hr
  show r.length = (t1.cols ++ t2.cols.filter (· != "page")).length
  rw [List.length_append]
  obtain ⟨k, hk, hrk⟩ := List.mem_flatMap.mp hr
  simp only [rowsForKey] at hrk
  split at hrk
  · obtain ⟨r2, hr2, hre⟩ := List.mem_map.mp hrk
    subst hre
    rw [List.length_append]
    rw [stripPage_length (w2 r2 (List.mem_filter.mp hr2).1)]
    simp [leftFill]
  · split at hrk
    · obtain ⟨r1, hr1, hre⟩ := List.mem_map.mp hrk
      subst hre
      rw [List.length_append, w1 r1 (List.mem_filter.mp hr1).1,
        List.length_replicate]
    · obtain ⟨r1, hr1, hin⟩ := List.mem_flatMap.mp hrk
      obtain ⟨r2, hr2, hre⟩ := List.mem_map.mp hin
      subst hre
      rw [List.length_append, w1 r1 (List.mem_filter.mp hr1).1,
        stripPage_length (w2 r2 (List.mem_filter.mp hr2).1)]

theorem map_coe_eq {α β : Type} (f : α → β) (l : List α) :
    (↑(l.map f) : Multiset β) = Multiset.map f ↑l := rfl

theorem groupContent_left_empty (t1 t2 : Table) (w2 : Wf t2)
    (nd1 : t1.cols.Nodup) (nd2 : t2.cols.Nodup)
    (hp1 : "page" ∈ t1.cols) (hp2 : "page" ∈ t2.cols) (k : Cell)
    (hm1 : t1.rows.filter (fun r => pageOf t1 r == k) = []) :
    (↑((rowsForKey t1 t2 k).map
        (rowContent (t1.cols ++ t2.cols.filter (· != "page"))))
      : Multiset (Multiset (String × Cell)))
    = ↑((rowsForKey t2 t1 k).map
        (rowContent (t2.cols ++ t1.cols.filter (· != "page")))) := by
  by_cases hm2 : t2.rows.filter (fun r => pageOf t2 r == k) = []
  · simp only [rowsForKey]
    rw [if_pos (by simp [hm1]), if_pos (by simp [hm2]), hm1, hm2]
    rfl
  · simp only [rowsForKey]
    rw [if_pos (by simp [hm1])]
    rw [if_neg (by simpa [List.isEmpty_iff] using hm2),
      if_pos (by simp [hm1])]
    rw [List.map_map, List.map_map]
    have hmaps : ((t2.rows.filter fun r => pageOf t2 r == k).map
        ((rowContent (t1.cols ++ t2.cols.filter (· != "page"))) ∘
          fun r2 => leftFill t1.cols k ++ stripPage t2.cols r2))
        = ((t2.rows.filter fun r => pageOf t2 r == k).map
        ((rowContent (t2.cols ++ t1.cols.filter (· != "page"))) ∘
          fun r2 => r2 ++
            List.replicate (t1.cols.filter (· != "page")).length none)) := by
      apply List.map_congr_left
      intro r2 hr2
      have hmem := List.mem_filter.mp hr2
      have hlen : r2.length = t2.cols.length := w2 r2 hmem.1
      have hkey : getCell t2.cols r2 "page" = k := by
        have := hmem.2
        simpa [pageOf] using this
      show rowContent (t1.cols ++ t2.cols.filter (· != "page"))
            (leftFill t1.cols k ++ stripPage t2.cols r2)
          = rowContent (t2.cols ++ t1.cols.filter (· != "page"))
            (r2 ++ List.replicate (t1.cols.filter (· != "page")).length none)
      rw [rowContent_rightOnly k hlen nd1 hp1,
        rowContent_leftOnly hlen nd2 hp2 hkey]
      rw [add_comm]
    rw [hmaps]

theorem groupContent_comm (t1 t2 : Table) (w1 : Wf t1) (w2 : Wf t2)
    (nd1 : t1.cols.Nodup) (nd2 : t2.cols.Nodup)
    (hp1 : "page" ∈ t1.cols) (hp2 : "page" ∈ t2.cols) (k : Cell) :
    (↑((rowsForKey t1 t2 k).map
        (rowContent (t1.cols ++ t2.cols.filter (· != "page"))))
      : Multiset (Multiset (String × Cell)))
    = ↑((rowsForKey t2 t1 k).map
        (rowContent (t2.cols ++ t1.cols.filter (· != "page")))) := by
  by_cases hm1 : t1.rows.filter (fun r => pageOf t1 r == k) = []
  · exact groupContent_left_empty t1 t2 w2 nd1 nd2 hp1 hp2 k hm1
  · by_cases hm2 : t2.rows.filter (fun r => pageOf t2 r == k) = []
    · exact (groupContent_left_empty t2 t1 w1 nd2 nd1 hp2 hp1 k hm2).symm
    · simp only [rowsForKey]
      rw [if_neg (by simpa [List.isEmpty_iff] using hm1),
        if_neg (by simpa [List.isEmpty_iff] using hm2),
        if_neg (by simpa [List.isEmpty_iff] using hm2),
        if_neg (by simpa [List.isEmpty_iff] using hm1)]
      rw [List.map_flatMap, List.map_flatMap]
      simp only [List.map_map]
      rw [← Multiset.coe_bind, ← Multiset.coe_bind]
      have side1 : ((t1.rows.filter fun r => pageOf t1 r == k : List (List Cell))
            : Multiset (List Cell)).bind
            (fun r1 => ↑(((t2.rows.filter fun r => pageOf t2 r == k).map
              ((rowContent (t1.cols ++ t2.cols.filter (· != "page"))) ∘
                fun r2 => r1 ++ stripPage t2.cols r2))))
          = ((t1.rows.filter fun r => pageOf t1 r == k : List (List Cell))
            : Multiset (List Cell)).bind
            (fun r1 => ((t2.rows.filter fun r => pageOf t2 r == k : List (List Cell))
              : Multiset (List Cell)).map
              (fun r2 => ("page", k) ::ₘ
                (↑((t1.cols.zip r1).filter fun p => p.1 != "page")
                  + ↑((t2.cols.zip r2).filter fun p => p.1 != "page")))) := by
        apply Multiset.bind_congr
        intro r1 hr1
        rw [Multiset.mem_coe] at hr1
        have hm1f := List.mem_filter.mp hr1
        have hlen1 : r1.length = t1.cols.length := w1 r1 hm1f.1
        have hkey1 : getCell t1.cols r1 "page" = k := by
          simpa [pageOf] using hm1f.2
        rw [map_coe_eq]
        apply Multiset.map_congr rfl
        intro r2 hr2
        rw [Multiset.mem_coe] at hr2
        have hm2f := List.mem_filter.mp hr2
        have hlen2 : r2.length = t2.cols.length := w2 r2 hm2f.1
        show rowContent (t1.cols ++ t2.cols.filter (· != "page"))
            (r1 ++ stripPage t2.cols r2) = _
        rw [rowContent_pair hlen1 hlen2 nd1 hp1 hkey1]
      have side2 : ((t2.rows.filter fun r => pageOf t2 r == k : List (List Cell))
            : Multiset (List Cell)).bind
            (fun r2 => ↑(((t1.rows.filter fun r => pageOf t1 r == k).map
              ((rowContent (t2.cols ++ t1.cols.filter (· != "page"))) ∘
                fun r1 => r2 ++ stripPage t1.cols r1))))
          = ((t2.rows.filter fun r => pageOf t2 r == k : List (List Cell))
            : Multiset (List Cell)).bind
            (fun r2 => ((t1.rows.filter fun r => pageOf t1 r == k : List (List Cell))
              : Multiset (List Cell)).map
              (fun r1 => ("page", k) ::ₘ
                (↑((t1.cols.zip r1).filter fun p => p.1 != "page")
                  + ↑((t2.cols.zip r2).filter fun p => p.1 != "page")))) := by
        apply Multiset.bind_congr
        intro r2 hr2
        rw [Multiset.mem_coe] at hr2
        have hm2f := List.mem_filter.mp hr2
        have hlen2 : r2.length = t2.cols.length := w2 r2 hm2f.1
        have hkey2 : getCell t2.cols r2 "page" = k := by
          simpa [pageOf] using hm2f.2
        rw [map_coe_eq]
        apply Multiset.map_congr rfl
        intro r1 hr1
        rw [Multiset.mem_coe] at hr1
        have hm1f := List.mem_filter.mp hr1
        have hlen1 : r1.length = t1.cols.length := w1 r1 hm1f.1
        show rowContent (t2.cols ++ t1.cols.filter (· != "page"))
            (r2 ++ stripPage t1.cols r1) = _
        rw [rowContent_pair hlen2 hlen1 nd2 hp2 hkey2]
        rw [add_comm]
      rw [side1, side2]
      exact Multiset.bind_map_comm _ _

theorem mergedContent_comm (t1 t2 : Table) (w1 : Wf t1) (w2 : Wf t2)
    (nd1 : t1.cols.Nodup) (nd2 : t2.cols.Nodup)
    (hp1 : "page" ∈ t1.cols) (hp2 : "page" ∈ t2.cols) :
    tableContent (outerMerge t1 t2) = tableContent (outerMerge t2 t1) := by
  unfold tableContent outerMerge
  rw [List.map_flatMap, List.map_flatMap]
  rw [← Multiset.coe_bind, ← Multiset.coe_bind]
  have hkeys : ((sortedKeys t1 t2 : List Cell) : Multiset Cell)
      = ↑(sortedKeys t2 t1) := by
    apply Multiset.coe_eq_coe.mpr
    exact (List.perm_insertionSort _ _).trans
      ((List.Perm.dedup List.perm_append_comm).trans
        (List.perm_insertionSort _ _).symm)
  rw [hkeys]
  apply Multiset.bind_congr
  intro k _
  exact groupContent_comm t1 t2 w1 w2 nd1 nd2 hp1 hp2 k

theorem rowsForKey_ne_nil {t1 t2 : Table} {k : Cell}
    (hk : k ∈ keysOf t1 ++ keysOf t2) : rowsForKey t1 t2 k ≠ [] := by
  have h12 : k ∈ keysOf t1 ∨ k ∈ keysOf t2 := List.mem_append.mp hk
  simp only [rowsForKey]
  split
  · rename_i hm1
    intro hnil
    rw [List.map_eq_nil_iff] at hnil
    rcases h12 with h | h
    · have hpos := filter_beq_length_pos (pageOf t1) t1.rows k h
      rw [List.isEmpty_iff] at hm1
      rw [hm1] at hpos
      simp at hpos
    · have hpos := filter_beq_length_pos (pageOf t2) t2.rows k h
      rw [hnil] at hpos
      simp at hpos
  · split
    · rename_i hm1 hm2
      intro hnil
      rw [List.map_eq_nil_iff] at hnil
      exact hm1 (by simp [hnil])
    · rename_i hm1 hm2
      intro hnil
      have hm1ne : (t1.rows.filter fun r => pageOf t1 r == k) ≠ [] := by
        intro hh
        exact hm1 (by simp [hh])
      have hm2ne : (t2.rows.filter fun r => pageOf t2 r == k) ≠ [] := by
        intro hh
        exact hm2 (by simp [hh])
      obtain ⟨r1, hr1⟩ := List.exists_mem_of_ne_nil _ hm1ne
      obtain ⟨r2, hr2⟩ := List.exists_mem_of_ne_nil _ hm2ne
      have hmem : (r1 ++ stripPage t2.cols r2) ∈
          ((t1.rows.filter fun r => pageOf t1 r == k).flatMap fun r1 =>
            (t2.rows.filter fun r => pageOf t2 r == k).map fun r2 =>
              r1 ++ stripPage t2.cols r2) :=
        List.mem_flatMap_of_mem hr1 (List.mem_map_of_mem _ hr2)
      rw [hnil] at hmem
      exact absurd hmem (List.not_mem_nil _)

theorem mem_keysOf_merged {t1 t2 : Table} (w1 : Wf t1) (h1 : "page" ∈ t1.cols)
    (k : Cell) :
    k ∈ keysOf (outerMerge t1 t2) ↔ k ∈ keysOf t1 ++ keysOf t2 := by
  constructor
  · intro hk
    obtain ⟨r, hr, hpr⟩ := List.mem_map.mp hk
    obtain ⟨k2, hk2, hrk⟩ := List.mem_flatMap.mp hr
    have hkey := pageOf_rowsForKey w1 h1 hrk
    have hkk : k = k2 := by rw [← hpr]; exact hkey
    rw [hkk]
    have hmem : k2 ∈ (keysOf t1 ++ keysOf t2).dedup := by
      simpa [sortedKeys] using hk2
    exact List.mem_dedup.mp hmem
  · intro hk
    have hks : k ∈ sortedKeys t1 t2 := by
      simp only [sortedKeys, List.mem_insertionSort]
      exact List.mem_dedup.mpr hk
    obtain ⟨r, hr⟩ := List.exists_mem_of_ne_nil _ (rowsForKey_ne_nil hk)
    apply List.mem_map.mpr
    refine ⟨r, List.mem_flatMap_of_mem hks hr, ?_⟩
    exact pageOf_rowsForKey w1 h1 hr

theorem zip_map_sections {γ : Type} (cols : List String) (r : List γ)
    (g : String × γ → γ) (h : r.length = cols.length) :
    cols.zip ((cols.zip r).map g) = (cols.zip r).map fun p => (p.1, g p) := by
  induction cols generalizing r with
  | nil => rfl
  | cons c cs ih =>
    cases r with
    | nil => simp at h
    | cons x xs =>
      rw [List.zip_cons_cons, List.map_cons, List.zip_cons_cons, List.map_cons,
        ih xs (by simpa using h)]

theorem content_mapPage {t : Table} (w : Wf t) (f : Cell → Cell) :
    tableContent (mapPage t f)
      = (tableContent t).map (Multiset.map (pairMapPage f)) := by
  unfold tableContent mapPage
  rw [List.map_map, map_coe_eq, map_coe_eq, Multiset.map_map]
  apply Multiset.map_congr rfl
  intro r hr
  rw [Multiset.mem_coe] at hr
  show rowContent t.cols ((t.cols.zip r).map _)
      = Multiset.map (pairMapPage f) (rowContent t.cols r)
  unfold rowContent
  rw [zip_map_sections _ _ _ (w r hr), map_coe_eq]
  apply Multiset.map_congr rfl
  intro p _
  unfold pairMapPage
  by_cases hp : p.1 = "page"
  · rw [if_pos hp, if_pos hp]
  · rw [if_neg hp, if_neg hp]

theorem sortStep_content {t : Table} (w : Wf t) :
    tableContent (sortStep t)
      = if (keysOf t).all numericOk
        then (tableContent t).map (Multiset.map (pairMapPage canonCell))
        else tableContent t := by
  simp only [sortStep]
  split
  · rename_i hc
    have hperm : tableContent ⟨(mapPage t canonCell).cols,
        List.insertionSort (rowLeNum (mapPage t canonCell).cols)
          (mapPage t canonCell).rows⟩
        = tableContent (mapPage t canonCell) := by
      unfold tableContent
      apply Multiset.coe_eq_coe.mpr
      exact (List.perm_insertionSort _ _).map _
    rw [hperm, content_mapPage w]
  · rename_i hc
    unfold tableContent
    apply Multiset.coe_eq_coe.mpr
    exact (List.perm_insertionSort _ _).map _

theorem sortStep_fallback {t : Table} (hf : ¬ (keysOf t).all numericOk = true)
    (hs : List.Sorted (rowLeStr t.cols) t.rows) : sortStep t = t := by
  unfold sortStep
  rw [if_neg hf, List.Sorted.insertionSort_eq hs]

theorem wf_prep_fst {df1 df2 : Table} (w1 : Wf df1) : Wf (prep df1 df2).1 := by
  simp only [prep]
  split
  · exact w1
  · unfold renameFirst
    split
    · exact w1
    · intro r hr
      simpa using w1 r hr

theorem wf_mapPage {t : Table} (w : Wf t) (f : Cell → Cell) : Wf (mapPage t f) := by
  intro r hr
  obtain ⟨r0, hr0, hq⟩ := List.mem_map.mp hr
  rw [← hq]
  show ((t.cols.zip r0).map _).length = t.cols.length
  rw [List.length_map, List.length_zip, w r0 hr0, Nat.min_self]

theorem cols_readCsv (t : Table) : (readCsv t).cols = t.cols := by
  unfold readCsv
  split
  · rfl
  · rfl

theorem wf_readCsv {t : Table} (w : Wf t) : Wf (readCsv t) := by
  unfold readCsv
  split
  · exact wf_mapPage w _
  · exact w

theorem pageDtypeNumeric_false {t : Table} {k : Cell} (hk : k ∈ keysOf t)
    (hnk : numericOk k = false) : pageDtypeNumeric t = false := by
  unfold pageDtypeNumeric
  have h1 : (keysOf t).all numericOk = false :=
    List.all_eq_false.mpr ⟨k, hk, by rw [hnk]; exact Bool.false_ne_true⟩
  rw [h1, Bool.and_false]

theorem readCsv_object {t : Table} (h : pageDtypeNumeric t = false) :
    readCsv t = t := by
  simp [readCsv, h]

/-- A table whose non-key cells never hold the sentinel is a fixed point of
the sentinel replacement. -/
theorem replaceNoBody_eq_self {t : Table} (w : Wf t) (hs : noSentinel t) :
    replaceNoBody t = t := by
  have hrows : (t.rows.map fun r => (t.cols.zip r).map fun p =>
      if p.1 ≠ "page" ∧ p.2 = some "No body data" then none else p.2) = t.rows := by
    have h1 : ∀ r ∈ t.rows, ((t.cols.zip r).map fun p =>
        if p.1 ≠ "page" ∧ p.2 = some "No body data" then none else p.2) = r := by
      intro r hr
      have h2 : ((t.cols.zip r).map fun p =>
          if p.1 ≠ "page" ∧ p.2 = some "No body data" then none else p.2)
          = (t.cols.zip r).map Prod.snd := by
        apply List.map_congr_left
        intro p hp
        rw [if_neg]
        rintro ⟨hp1, hp2⟩
        exact hs r hr p hp hp1 hp2
      rw [h2]
      exact List.map_snd_zip t.cols r (le_of_eq (w r hr))
    calc (t.rows.map fun r => (t.cols.zip r).map fun p =>
          if p.1 ≠ "page" ∧ p.2 = some "No body data" then none else p.2)
        = t.rows.map id := List.map_congr_left h1
      _ = t.rows := List.map_id t.rows
  unfold replaceNoBody
  rw [hrows]

/-- The read stage only rewrites the page column, so it preserves the
absence of the sentinel from the non-key cells. -/
theorem noSentinel_readCsv {t : Table} (w : Wf t) (hs : noSentinel t) :
    noSentinel (readCsv t) := by
  unfold readCsv
  split
  · intro r hr p hp hp1
    obtain ⟨r0, hr0, hq⟩ := List.mem_map.mp hr
    rw [← hq] at hp
    have hzip : t.cols.zip ((t.cols.zip r0).map fun q =>
        if q.1 = "page" then canonCell q.2 else q.2)
        = (t.cols.zip r0).map fun q =>
            (q.1, if q.1 = "page" then canonCell q.2 else q.2) :=
      zip_map_sections t.cols r0 _ (w r0 hr0)
    rw [show (mapPage t canonCell).cols = t.cols from rfl] at hp
    rw [hzip] at hp
    obtain ⟨q, hq0, hq1⟩ := List.mem_map.mp hp
    rw [← hq1] at hp1 ⊢
    have hq2 : (if q.1 = "page" then canonCell q.2 else q.2) = q.2 := if_neg hp1
    show (if q.1 = "page" then canonCell q.2 else q.2) ≠ some "No body data"
    rw [hq2]
    exact hs r0 hr0 q hq0 hp1
  · exact hs

/-! ## Newline-run analysis of format_text, toward C7 -/

theorem pb_length : PB.length = 15 := by decide

theorem pb_no_nl : ('\n' : Char) ∉ PB := by decide

/-- The placeholder word is unbordered: no proper nonempty suffix of it is
also a prefix of it.  This is what makes its occurrences non-overlapping and
lets a partially matched occurrence never restart mid-word. -/
theorem pb_unbordered : ∀ i, i < 15 → 1 ≤ i → PB.drop i ≠ PB.take (15 - i) := by decide

theorem goodAux_nil (n : Nat) : goodAux [] n = (n == 0 || n == 2) := rfl

theorem goodAux_cons (c : Char) (cs : List Char) (n : Nat) :
    goodAux (c :: cs) n =
      if c = '\n' then goodAux cs (n + 1)
      else ((n == 0 || n == 2) && goodAux cs 0) := rfl

theorem goodAux_nl (cs : List Char) (n : Nat) :
    goodAux ('\n' :: cs) n = goodAux cs (n + 1) := by
  rw [goodAux_cons, if_pos rfl]

theorem goodAux_ne {c : Char} (hc : c ≠ '\n') (cs : List Char) (n : Nat) :
    goodAux (c :: cs) n = ((n == 0 || n == 2) && goodAux cs 0) := by
  rw [goodAux_cons, if_neg hc]

theorem subNlAux_cons (c : Char) (cs : List Char) (n : Nat) :
    subNlAux (c :: cs) n =
      if c = '\n' then subNlAux cs (n + 1)
      else if n = 0 then c :: subNlAux cs 0
      else if n = 1 then '\n' :: c :: subNlAux cs 0
      else PB ++ c :: subNlAux cs 0 := rfl

theorem subNl_nil : subNl [] = [] := rfl

theorem subNl_cons_ne {c : Char} (hc : c ≠ '\n') (cs : List Char) :
    subNl (c :: cs) = c :: subNl cs := by
  show subNlAux (c :: cs) 0 = c :: subNlAux cs 0
  rw [subNlAux_cons, if_neg hc, if_pos rfl]

theorem subNl_single : subNl ['\n'] = ['\n'] := rfl

theorem subNl_nl_cons_ne {c : Char} (hc : c ≠ '\n') (cs : List Char) :
    subNl ('\n' :: c :: cs) = '\n' :: subNl (c :: cs) := by
  show subNlAux ('\n' :: c :: cs) 0 = '\n' :: subNl (c :: cs)
  rw [subNlAux_cons, if_pos rfl, subNlAux_cons, if_neg hc,
    if_neg (by omega), if_pos rfl, subNl_cons_ne hc]
  rfl

/-- Inside a newline run of length at least two, the substitution emits the
placeholder once and resumes after the run. -/
theorem subNlAux_run (cs : List Char) : ∀ m : Nat,
    subNlAux cs (m + 2) = PB ++ subNl (cs.dropWhile (fun c => c = '\n')) := by
  induction cs with
  | nil =>
    intro m
    show (if m + 2 = 0 then [] else if m + 2 = 1 then ['\n'] else PB) = _
    rw [if_neg (by omega), if_neg (by omega), List.dropWhile_nil, subNl_nil,
      List.append_nil]
  | cons c cs ih =>
    intro m
    rw [subNlAux_cons]
    by_cases hc : c = '\n'
    · subst hc
      rw [if_pos rfl]
      have h2 : ('\n' :: cs).dropWhile (fun c => c = '\n') =
          cs.dropWhile (fun c => c = '\n') := by
        rw [List.dropWhile_cons]
        simp
      rw [h2]
      exact ih (m + 1)
    · rw [if_neg hc, if_neg (by omega), if_neg (by omega)]
      have h2 : (c :: cs).dropWhile (fun c => c = '\n') = c :: cs := by
        rw [List.dropWhile_cons]
        simp [hc]
      rw [h2, subNl_cons_ne hc]
      rfl

theorem subNl_run (cs : List Char) :
    subNl ('\n' :: '\n' :: cs) = PB ++ subNl (cs.dropWhile (fun c => c = '\n')) := by
  show subNlAux ('\n' :: '\n' :: cs) 0 = _
  rw [subNlAux_cons, if_pos rfl, subNlAux_cons, if_pos rfl]
  exact subNlAux_run cs 0

theorem infix_cons_lift {l t : List Char} (c : Char) (h : l <:+: t) : l <:+: c :: t :=
  h.trans (List.suffix_cons c t).isInfix

/-- A suffix of an append is a suffix of the right part, or carries a suffix
of the left part in front of the whole right part. -/
theorem suffix_append_split {t a b : List Char} (h : t <:+ a ++ b) :
    t <:+ b ∨ ∃ r, r <:+ a ∧ t = r ++ b := by
  induction a with
  | nil =>
    left
    simpa using h
  | cons x a ih =>
    rw [List.cons_append] at h
    rcases List.suffix_cons_iff.mp h with h1 | h1
    · right
      exact ⟨x :: a, List.suffix_refl _, by rw [h1, List.cons_append]⟩
    · rcases ih h1 with h2 | ⟨r, hr, ht⟩
      · left
        exact h2
      · right
        exact ⟨r, hr.trans (List.suffix_cons x a), ht⟩

/-- The head of a dropWhile result never satisfies the dropped predicate. -/
theorem dropWhile_nl_head (l : List Char) :
    ¬ (l.dropWhile (fun c => c = '\n')).head? = some '\n' := by
  induction l with
  | nil => simp
  | cons c cs ih =>
    rw [List.dropWhile_cons]
    by_cases hc : c = '\n'
    · rw [if_pos (by simp [hc])]
      exact ih
    · rw [if_neg (by simp [hc])]
      simp [hc]

theorem pb_drop15 : PB.drop 15 = [] := by decide

theorem pb_get_ne_nl (j : Nat) (h : j < PB.length) : PB[j] ≠ '\n' :=
  fun he => pb_no_nl (he ▸ List.getElem_mem h)

/-- A nonempty proper suffix of the placeholder is never a prefix of a text
beginning with the placeholder: that would exhibit a border. -/
theorem pb_drop_not_prefix_pb (j : Nat) (hj1 : 1 ≤ j) (hj : j ≤ 14) (X : List Char) :
    ¬ PB.drop j <+: PB ++ X := by
  intro hp
  have h1 : PB.drop j <+: PB :=
    List.prefix_of_prefix_length_le hp (List.prefix_append PB X)
      (by rw [List.length_drop]; exact Nat.sub_le _ _)
  have h2 : PB.drop j = PB.take ((PB.drop j).length) := List.prefix_iff_eq_take.mp h1
  rw [List.length_drop, pb_length] at h2
  exact pb_unbordered j (by omega) hj1 h2

/-- Tracking a partially matched placeholder through the newline
substitution: if the last 15 - k characters of the placeholder are a prefix
of the substituted text (and, when the match is complete-from-the-start, the
text does not begin inside a newline run), then they are a prefix of the
original text.  A newline run in the original would emit a placeholder block
and force a border of the placeholder, which does not exist. -/
theorem pb_prefix_subNl : ∀ (w : List Char) (k : Nat), k ≤ 14 →
    (k = 0 → ¬ w.head? = some '\n') → PB.drop k <+: subNl w → PB.drop k <+: w := by
  intro w
  induction w with
  | nil =>
    intro k hk _ hp
    rw [subNl_nil] at hp
    have h0 := congrArg List.length (List.prefix_nil.mp hp)
    rw [List.length_drop, pb_length, List.length_nil] at h0
    omega
  | cons c cs ih =>
    intro k hk hk0 hp
    have hklt : k < PB.length := by rw [pb_length]; omega
    by_cases hc : c = '\n'
    · subst hc
      rcases Nat.eq_zero_or_pos k with rfl | hk1
      · exact absurd rfl (hk0 rfl)
      cases cs with
      | nil =>
        rw [subNl_single, List.drop_eq_getElem_cons hklt] at hp
        exact absurd (List.cons_prefix_cons.mp hp).1 (pb_get_ne_nl k hklt)
      | cons c2 cs2 =>
        by_cases hc2 : c2 = '\n'
        · subst hc2
          rw [subNl_run] at hp
          exact absurd hp (pb_drop_not_prefix_pb k hk1 hk _)
        · rw [subNl_nl_cons_ne hc2, List.drop_eq_getElem_cons hklt] at hp
          exact absurd (List.cons_prefix_cons.mp hp).1 (pb_get_ne_nl k hklt)
    · rw [subNl_cons_ne hc, List.drop_eq_getElem_cons hklt] at hp
      obtain ⟨hce, hp2⟩ := List.cons_prefix_cons.mp hp
      by_cases hk14 : k = 14
      · subst hk14
        rw [List.drop_eq_getElem_cons hklt, pb_drop15, hce]
        exact ⟨cs, rfl⟩
      · have h3 := ih (k + 1) (by omega) (fun h => absurd h (by omega)) hp2
        rw [List.drop_eq_getElem_cons hklt]
        exact List.cons_prefix_cons.mpr ⟨hce, h3⟩

/-- Tracking a partially matched placeholder followed by a second whole
placeholder through the newline substitution: either the partial match is
made of original characters, or a whole placeholder occurs in the original
text. -/
theorem pb_two_prefix_subNl : ∀ (w : List Char) (j : Nat), j ≤ 14 →
    PB.drop j ++ PB <+: subNl w → PB.drop j <+: w ∨ PB <:+: w := by
  intro w
  induction w with
  | nil =>
    intro j hj hp
    rw [subNl_nil] at hp
    have h0 := congrArg List.length (List.prefix_nil.mp hp)
    rw [List.length_append, List.length_drop, pb_length, List.length_nil] at h0
    omega
  | cons c cs ih =>
    intro j hj hp
    have hjlt : j < PB.length := by rw [pb_length]; omega
    by_cases hc : c = '\n'
    · subst hc
      rcases Nat.eq_zero_or_pos j with rfl | hj1
      · rw [List.drop_zero] at hp ⊢
        cases cs with
        | nil =>
          rw [subNl_single] at hp
          have h0 := hp.length_le
          rw [List.length_append, pb_length] at h0
          simp at h0
        | cons c2 cs2 =>
          by_cases hc2 : c2 = '\n'
          · subst hc2
            rw [subNl_run] at hp
            obtain ⟨r, hr⟩ := hp
            rw [List.append_assoc] at hr
            have h4 : PB <+: subNl (cs2.dropWhile (fun c => c = '\n')) :=
              ⟨r, List.append_cancel_left hr⟩
            have h5 := pb_prefix_subNl _ 0 (by omega)
              (fun _ => dropWhile_nl_head cs2) (by rw [List.drop_zero]; exact h4)
            rw [List.drop_zero] at h5
            right
            exact infix_cons_lift _ (infix_cons_lift _
              (h5.isInfix.trans (List.dropWhile_suffix _).isInfix))
          · rw [subNl_nl_cons_ne hc2] at hp
            have h0 : PB.drop 0 ++ PB <+: '\n' :: subNl (c2 :: cs2) := by
              rw [List.drop_zero]; exact hp
            rw [List.drop_eq_getElem_cons (by rw [pb_length]; omega),
              List.cons_append] at h0
            exact absurd (List.cons_prefix_cons.mp h0).1
              (pb_get_ne_nl 0 (by rw [pb_length]; omega))
      · cases cs with
        | nil =>
          rw [subNl_single] at hp
          have h0 := hp.length_le
          rw [List.length_append, List.length_drop, pb_length] at h0
          simp at h0
        | cons c2 cs2 =>
          by_cases hc2 : c2 = '\n'
          · subst hc2
            rw [subNl_run] at hp
            exact absurd ((List.prefix_append _ _).trans hp)
              (pb_drop_not_prefix_pb j hj1 hj _)
          · rw [subNl_nl_cons_ne hc2, List.drop_eq_getElem_cons hjlt,
              List.cons_append] at hp
            exact absurd (List.cons_prefix_cons.mp hp).1 (pb_get_ne_nl j hjlt)
    · rw [subNl_cons_ne hc, List.drop_eq_getElem_cons hjlt, List.cons_append] at hp
      obtain ⟨hce, hp2⟩ := List.cons_prefix_cons.mp hp
      by_cases hj14 : j = 14
      · subst hj14
        left
        rw [List.drop_eq_getElem_cons hjlt, pb_drop15, hce]
        exact ⟨cs, rfl⟩
      · rcases ih (j + 1) (by omega) hp2 with h3 | h3
        · left
          rw [List.drop_eq_getElem_cons hjlt]
          exact List.cons_prefix_cons.mpr ⟨hce, h3⟩
        · right
          exact infix_cons_lift _ h3

/-- A doubled placeholder occurring anywhere in the substituted text forces
an occurrence of the placeholder in the original text: the substitution
itself only ever produces isolated, non-adjacent placeholder blocks. -/
theorem pb_two_infix_subNlF : ∀ (n : Nat) (s : List Char), s.length ≤ n →
    PB ++ PB <:+: subNl s → PB <:+: s := by
  intro n
  induction n with
  | zero =>
    intro s hl hi
    have hs : s = [] := List.length_eq_zero.mp (Nat.le_zero.mp hl)
    subst hs
    rw [subNl_nil] at hi
    have h0 := congrArg List.length (List.infix_nil.mp hi)
    rw [List.length_append, pb_length, List.length_nil] at h0
    omega
  | succ n ih =>
    intro s hl hi
    cases s with
    | nil =>
      rw [subNl_nil] at hi
      have h0 := congrArg List.length (List.infix_nil.mp hi)
      rw [List.length_append, pb_length, List.length_nil] at h0
      omega
    | cons c cs =>
      by_cases hc : c = '\n'
      · subst hc
        cases cs with
        | nil =>
          rw [subNl_single] at hi
          have h0 := hi.length_le
          rw [List.length_append, pb_length] at h0
          simp at h0
        | cons c2 cs2 =>
          by_cases hc2 : c2 = '\n'
          · subst hc2
            rw [subNl_run] at hi
            obtain ⟨t, hpt, hts⟩ := List.infix_iff_prefix_suffix.mp hi
            have hvlift : PB <:+: cs2.dropWhile (fun c => c = '\n') →
                PB <:+: '\n' :: '\n' :: cs2 := fun h =>
              infix_cons_lift _ (infix_cons_lift _
                (h.trans (List.dropWhile_suffix _).isInfix))
            have hvlen : (cs2.dropWhile (fun c => c = '\n')).length ≤ n := by
              have h2 := (List.dropWhile_suffix
                (fun c => decide (c = '\n')) (l := cs2)).length_le
              simp only [List.length_cons] at hl
              omega
            rcases suffix_append_split hts with h1 | ⟨r, hr, ht⟩
            · exact hvlift (ih _ hvlen (hpt.isInfix.trans h1.isInfix))
            · subst ht
              have hrd : r = PB.drop (PB.length - r.length) :=
                List.suffix_iff_eq_drop.mp hr
              have hi15 : PB.length - r.length ≤ 15 := by
                rw [pb_length]
                omega
              by_cases hi0 : PB.length - r.length = 0
              · rw [hi0, List.drop_zero] at hrd
                subst hrd
                obtain ⟨q, hq⟩ := hpt
                rw [List.append_assoc] at hq
                have h4 : PB <+: subNl (cs2.dropWhile (fun c => c = '\n')) :=
                  ⟨q, List.append_cancel_left hq⟩
                have h5 := pb_prefix_subNl _ 0 (by omega)
                  (fun _ => dropWhile_nl_head cs2) (by rw [List.drop_zero]; exact h4)
                rw [List.drop_zero] at h5
                exact hvlift h5.isInfix
              · by_cases hi15' : PB.length - r.length = 15
                · rw [hi15', pb_drop15] at hrd
                  subst hrd
                  rw [List.nil_append] at hpt
                  exact hvlift (ih _ hvlen hpt.isInfix)
                · have hge : 1 ≤ PB.length - r.length := by omega
                  have hle : PB.length - r.length ≤ 14 := by omega
                  have h1 : PB.take (15 - (PB.length - r.length)) <+:
                      r ++ subNl (cs2.dropWhile (fun c => c = '\n')) :=
                    ((List.take_prefix _ PB).trans (List.prefix_append PB PB)).trans hpt
                  have h2 : r <+: r ++ subNl (cs2.dropWhile (fun c => c = '\n')) :=
                    List.prefix_append _ _
                  have hlen1 : (PB.take (15 - (PB.length - r.length))).length =
                      15 - (PB.length - r.length) := by
                    rw [List.length_take, pb_length]
                    omega
                  have hlen2 : r.length = 15 - (PB.length - r.length) := by
                    have := hr.length_le
                    rw [pb_length] at this ⊢
                    omega
                  have heq : PB.take (15 - (PB.length - r.length)) = r :=
                    (List.prefix_of_prefix_length_le h1 h2 (by omega)).eq_of_length
                      (by omega)
                  exact absurd (heq.trans hrd).symm
                    (pb_unbordered (PB.length - r.length) (by omega) hge)
          · rw [subNl_nl_cons_ne hc2] at hi
            rcases List.infix_cons_iff.mp hi with h1 | h1
            · have h2 := pb_two_prefix_subNl ('\n' :: c2 :: cs2) 0 (by omega)
                (by rw [List.drop_zero, subNl_nl_cons_ne hc2]; exact h1)
              rw [List.drop_zero] at h2
              rcases h2 with h3 | h3
              · exact h3.isInfix
              · exact h3
            · have h2 := ih (c2 :: cs2) (by simp only [List.length_cons] at hl ⊢; omega) h1
              exact infix_cons_lift _ h2
      · rw [subNl_cons_ne hc] at hi
        rcases List.infix_cons_iff.mp hi with h1 | h1
        · have h2 := pb_two_prefix_subNl (c :: cs) 0 (by omega)
            (by rw [List.drop_zero, subNl_cons_ne hc]; exact h1)
          rw [List.drop_zero] at h2
          rcases h2 with h3 | h3
          · exact h3.isInfix
          · exact h3
        · have h2 := ih cs (by simp only [List.length_cons] at hl; omega) h1
          exact infix_cons_lift _ h2

theorem pb_two_infix_subNl {s : List Char} (h : PB ++ PB <:+: subNl s) : PB <:+: s :=
  pb_two_infix_subNlF s.length s le_rfl h

/-- The newline-to-space map cannot produce a space-free word that was not
already present: a prefix of the image without spaces is a prefix of the
source. -/
theorem mapNl_pref : ∀ (v t : List Char), v <+: mapNl t →
    (∀ c ∈ v, c ≠ ' ') → v <+: t := by
  intro v
  induction v with
  | nil =>
    intro t _ _
    exact List.nil_prefix
  | cons x xs ih =>
    intro t hp hs
    cases t with
    | nil =>
      have h0 := List.prefix_nil.mp hp
      exact absurd h0 (by simp)
    | cons c cs =>
      have hm : mapNl (c :: cs) = (if c = '\n' then ' ' else c) :: mapNl cs := rfl
      rw [hm] at hp
      obtain ⟨hx, hp2⟩ := List.cons_prefix_cons.mp hp
      have hxs : x ≠ ' ' := hs x (by simp)
      have hxc : x = c := by
        by_cases hc : c = '\n'
        · rw [if_pos hc] at hx
          exact absurd hx hxs
        · rw [if_neg hc] at hx
          exact hx
      exact List.cons_prefix_cons.mpr ⟨hxc, ih cs hp2 (fun d hd => hs d (by simp [hd]))⟩

/-- Space-free infixes of the newline-to-space image come from the source. -/
theorem mapNl_inf : ∀ (t v : List Char), v <:+: mapNl t →
    (∀ c ∈ v, c ≠ ' ') → v <:+: t := by
  intro t
  induction t with
  | nil =>
    intro v hv _
    have h0 : v = [] := List.infix_nil.mp hv
    subst h0
    exact List.nil_infix
  | cons c cs ih =>
    intro v hv hs
    have hm : mapNl (c :: cs) = (if c = '\n' then ' ' else c) :: mapNl cs := rfl
    rw [hm] at hv
    rcases List.infix_cons_iff.mp hv with h1 | h1
    · exact (mapNl_pref v (c :: cs) (by rw [hm]; exact h1) hs).isInfix
    · exact infix_cons_lift _ (ih v h1 hs)

theorem mapNl_no_nl (l : List Char) : ∀ c ∈ mapNl l, c ≠ '\n' := by
  intro c hc
  obtain ⟨a, _, ha⟩ := List.mem_map.mp hc
  by_cases h : a = '\n'
  · rw [if_pos h] at ha
    rw [← ha]
    decide
  · rw [if_neg h] at ha
    rw [← ha]
    exact h

/-- The placeholder restoration step: on newline-free text without adjacent
placeholder occurrences, every emitted newline run has length exactly two.
The accumulator n is the newline run already open on entry (0 or 2), and a
run of 2 on entry means the text does not begin with another placeholder. -/
theorem rep_good : ∀ (fuel : Nat) (t : List Char) (n : Nat), t.length ≤ fuel →
    (∀ c ∈ t, c ≠ '\n') → ¬ PB ++ PB <:+: t → (n = 0 ∨ n = 2) →
    (n = 2 → ¬ PB <+: t) → goodAux (repPBF fuel t) n = true := by
  intro fuel
  induction fuel with
  | zero =>
    intro t n hl _ _ hn _
    have ht : t = [] := List.length_eq_zero.mp (Nat.le_zero.mp hl)
    subst ht
    rcases hn with rfl | rfl <;> rfl
  | succ fuel ih =>
    intro t n hl hnl hpp hn h2
    cases t with
    | nil => rcases hn with rfl | rfl <;> rfl
    | cons c cs =>
      have hstep : repPBF (fuel + 1) (c :: cs) =
          if PB.isPrefixOf (c :: cs) then
            '\n' :: '\n' :: repPBF fuel ((c :: cs).drop PB.length)
          else c :: repPBF fuel cs := rfl
      rw [hstep]
      by_cases hp : PB.isPrefixOf (c :: cs) = true
      · rw [if_pos hp]
        have hpre : PB <+: c :: cs := List.isPrefixOf_iff_prefix.mp hp
        rcases hn with rfl | rfl
        · rw [goodAux_nl, goodAux_nl]
          obtain ⟨r, hr⟩ := hpre
          have hdrop : (c :: cs).drop PB.length = r := by
            rw [← hr]
            exact List.drop_left PB r
          rw [hdrop]
          have hrs : r <:+ c :: cs := by
            rw [← hr]
            exact ⟨PB, rfl⟩
          refine ih r 2 ?_ ?_ ?_ (Or.inr rfl) ?_
          · have := congrArg List.length hr
            rw [List.length_append, pb_length] at this
            simp only [List.length_cons] at this hl
            omega
          · exact fun d hd => hnl d (hrs.subset hd)
          · exact fun hx => hpp (hx.trans hrs.isInfix)
          · intro _ hx
            apply hpp
            obtain ⟨q, hq⟩ := hx
            exact ⟨[], q, by rw [List.nil_append, List.append_assoc, hq, hr]⟩
        · exact absurd hpre (h2 rfl)
      · rw [if_neg hp]
        have hc : c ≠ '\n' := hnl c (by simp)
        rw [goodAux_ne hc]
        have hg : goodAux (repPBF fuel cs) 0 = true := by
          refine ih cs 0 ?_ ?_ ?_ (Or.inl rfl) ?_
          · simp only [List.length_cons] at hl
            omega
          · exact fun d hd => hnl d (by simp [hd])
          · exact fun hx => hpp (infix_cons_lift _ hx)
          · intro h0
            exact absurd h0 (by decide)
        rw [hg]
        rcases hn with rfl | rfl <;> rfl

/-- The space-collapsing step preserves well-shaped newline runs, whether or
not a pending space is waiting to be emitted. -/
theorem colAux_good : ∀ (cs : List Char),
    (∀ n, goodAux cs n = true → goodAux (colAux cs false) n = true) ∧
    (∀ n, (n = 0 ∨ n = 2) → goodAux cs 0 = true → goodAux (colAux cs true) n = true) := by
  intro cs
  induction cs with
  | nil =>
    constructor
    · intro n hg
      exact hg
    · intro n hn _
      rcases hn with rfl | rfl <;> rfl
  | cons c cs ih =>
    obtain ⟨ihF, ihT⟩ := ih
    have hstepF : colAux (c :: cs) false =
        if c = ' ' then colAux cs true else c :: colAux cs false := by
      show (if c = ' ' then colAux cs true
        else if False then ' ' :: c :: colAux cs false else c :: colAux cs false) = _
      simp
    have hstepT : colAux (c :: cs) true =
        if c = ' ' then colAux cs true else ' ' :: c :: colAux cs false := by
      show (if c = ' ' then colAux cs true
        else if True then ' ' :: c :: colAux cs false else c :: colAux cs false) = _
      simp
    constructor
    · intro n hg
      rw [hstepF]
      by_cases hc : c = ' '
      · rw [if_pos hc]
        subst hc
        rw [goodAux_ne (by decide)] at hg
        rw [Bool.and_eq_true] at hg
        obtain ⟨h1, h2⟩ := hg
        refine ihT n ?_ h2
        rw [Bool.or_eq_true] at h1
        rcases h1 with h3 | h3
        · exact Or.inl (by simpa using h3)
        · exact Or.inr (by simpa using h3)
      · rw [if_neg hc]
        by_cases hnc : c = '\n'
        · subst hnc
          rw [goodAux_nl] at hg ⊢
          exact ihF (n + 1) hg
        · rw [goodAux_ne hnc] at hg ⊢
          rw [Bool.and_eq_true] at hg
          obtain ⟨h1, h2⟩ := hg
          rw [h1, ihF 0 h2]
          rfl
    · intro n hn hg0
      rw [hstepT]
      by_cases hc : c = ' '
      · rw [if_pos hc]
        subst hc
        rw [goodAux_ne (by decide)] at hg0
        rw [Bool.and_eq_true] at hg0
        exact ihT n hn hg0.2
      · rw [if_neg hc]
        rw [goodAux_ne (by decide)]
        have h1 : (n == 0 || n == 2) = true := by
          rcases hn with rfl | rfl <;> rfl
        rw [h1]
        by_cases hnc : c = '\n'
        · subst hnc
          rw [goodAux_nl] at hg0 ⊢
          rw [ihF 1 hg0]
          rfl
        · rw [goodAux_ne hnc] at hg0 ⊢
          rw [Bool.and_eq_true] at hg0
          simp only [Bool.true_and]
          rw [ihF 0 hg0.2]
          rfl

/-- Stripping leading whitespace removes whole newline runs, never part of
one, so well-shaped runs stay well shaped. -/
theorem dw_good : ∀ (t : List Char) (n : Nat), goodAux t n = true →
    goodAux (t.dropWhile pyWs) 0 = true := by
  intro t
  induction t with
  | nil =>
    intro n _
    rfl
  | cons c cs ih =>
    intro n hg
    rw [List.dropWhile_cons]
    by_cases hw : pyWs c = true
    · rw [if_pos hw]
      by_cases hnc : c = '\n'
      · subst hnc
        rw [goodAux_nl] at hg
        exact ih (n + 1) hg
      · rw [goodAux_ne hnc] at hg
        rw [Bool.and_eq_true] at hg
        exact ih 0 hg.2
    · rw [if_neg hw]
      have hnc : c ≠ '\n' := by
        intro h0
        apply hw
        rw [h0]
        decide
      rw [goodAux_ne hnc] at hg ⊢
      rw [Bool.and_eq_true] at hg
      rw [hg.2]
      rfl

/-- Stripping trailing whitespace either erases the whole text or removes
whole trailing newline runs, preserving well-shaped runs. -/
theorem de_good : ∀ (t : List Char) (n : Nat), goodAux t n = true →
    dropEndWs t = [] ∨ goodAux (dropEndWs t) n = true := by
  intro t
  induction t with
  | nil =>
    intro n _
    exact Or.inl rfl
  | cons c cs ih =>
    intro n hg
    have hstep : dropEndWs (c :: cs) =
        match dropEndWs cs with
        | [] => if pyWs c then [] else [c]
        | r => c :: r := rfl
    cases hr : dropEndWs cs with
    | nil =>
      rw [hstep, hr]
      by_cases hw : pyWs c = true
      · rw [if_pos hw]
        exact Or.inl rfl
      · rw [if_neg hw]
        right
        have hnc : c ≠ '\n' := by
          intro h0
          apply hw
          rw [h0]
          decide
        rw [goodAux_ne hnc] at hg ⊢
        rw [Bool.and_eq_true] at hg
        rw [hg.1]
        rfl
    | cons d ds =>
      rw [hstep, hr]
      right
      by_cases hnc : c = '\n'
      · subst hnc
        rw [goodAux_nl] at hg ⊢
        rcases ih (n + 1) hg with h1 | h1
        · rw [hr] at h1
          exact absurd h1 (by simp)
        · rw [hr] at h1
          exact h1
      · rw [goodAux_ne hnc] at hg ⊢
        rw [Bool.and_eq_true] at hg
        obtain ⟨h1, h2⟩ := hg
        rcases ih 0 h2 with h3 | h3
        · rw [hr] at h3
          exact absurd h3 (by simp)
        · rw [hr] at h3
          rw [h1, h3]
          rfl

end HT

namespace HT

/-! ## Claims about the page segmenter: C6 -/

/-- C6: for every input document in which zero separator matches are
detected, process_text_to_csv reports the no-separators failure and produces
no page records: the result is the error value, not a one-page list, and no
rows are emitted. -/
theorem c6_no_separators_error (text : List Char) (h : finditer text = []) :
    process_text_to_csv text =
      Except.error "Error: No page separators found in the text file. Check the format." := by
  simp [process_text_to_csv, h]

/-- Witness for C6 at a concrete document without separators. -/
theorem c6_no_separators_error_witness :
    finditer "hello world, no separators here".data = [] ∧
      process_text_to_csv "hello world, no separators here".data =
        Except.error "Error: No page separators found in the text file. Check the format." :=
  ⟨by decide, c6_no_separators_error _ (by decide)⟩

/-! ## Claims about the page segmenter: C8 and C10 -/

theorem matchLead_dot (x : List Char) :
    matchLead ("## p. ".data ++ x) = some x := rfl

/-- C8 counterexample: a separator line in the documented format whose
sequence token is the roman numeral iv is not recognized at all: the match
attempt fails and the scan of the line finds nothing, because the regex
captures the token with a digits-only group. -/
theorem c8_counterexample :
    sepAt (specSepLine "x ".data "iv".data 30) = none ∧
      finditer (specSepLine "x ".data "iv".data 30) = [] := by decide

/-- C8 amended: a separator line in the documented format whose sequence
token is one or more decimal digits is recognized, and the token is
extracted verbatim as text, not coerced to an integer; tokens containing a
non-digit are not recognized. -/
theorem c8_digit_token_recognized (label seq rest : List Char) (n : Nat)
    (hlabel : ∀ c ∈ label, notParenHash c = true)
    (hseq : seq ≠ []) (hdig : ∀ c ∈ seq, c.isDigit = true)
    (hn : 30 ≤ n) (hrest : ∀ c ∈ rest.head?, isHash c = false) :
    sepAt (specSepLine label seq n ++ rest) = some (label, seq, rest) := by
  have e1 : ("(#".data : List Char) = ['(', '#'] := rfl
  have e2 : (") ".data : List Char) = [')', ' '] := rfl
  have e : specSepLine label seq n ++ rest =
      "## p. ".data ++
        (label ++ '(' :: '#' ::
          (seq ++ ')' :: ' ' :: (List.replicate n '#' ++ rest))) := by
    simp [specSepLine, e1, e2, List.append_assoc]
  rw [e]
  unfold sepAt
  rw [matchLead_dot, Option.some_bind]
  rw [List.takeWhile_append_of_pos hlabel, List.dropWhile_append_of_pos hlabel]
  rw [List.takeWhile_cons_of_neg (by decide), List.dropWhile_cons_of_neg (by decide)]
  rw [List.append_nil]
  show (afterLabel ('(' :: '#' :: _)).bind _ = _
  rw [show ∀ y, afterLabel ('(' :: '#' :: y) = some y from fun y => rfl, Option.some_bind]
  have hdig2 : ∀ c ∈ seq, pyDigit c = true := fun c hc => by
    simp [pyDigit, hdig c hc]
  rw [List.takeWhile_append_of_pos hdig2, List.dropWhile_append_of_pos hdig2]
  rw [List.takeWhile_cons_of_neg (by decide), List.dropWhile_cons_of_neg (by decide)]
  rw [List.append_nil]
  rw [if_neg (by simpa [List.isEmpty_iff] using hseq)]
  rw [show ∀ y, afterDigits (')' :: ' ' :: y) = some y from fun y => rfl, Option.some_bind]
  have hhash : ∀ c ∈ List.replicate n '#', isHash c = true := by
    intro c hc
    rw [List.eq_of_mem_replicate hc]; rfl
  rw [List.takeWhile_append_of_pos hhash, List.dropWhile_append_of_pos hhash]
  have htw : rest.takeWhile isHash = [] := by
    cases rest with
    | nil => rfl
    | cons c cs =>
      have hc : isHash c = false := hrest c rfl
      simp [List.takeWhile_cons, hc]
  have hdw : rest.dropWhile isHash = rest := by
    cases rest with
    | nil => rfl
    | cons c cs =>
      have hc : isHash c = false := hrest c rfl
      simp [List.dropWhile_cons, hc]
  rw [htw, hdw, List.append_nil]
  rw [if_pos (by simpa using hn)]

/-- Witness for C8 amended at the documented example separator line. -/
theorem c8_digit_token_recognized_witness :
    sepAt (specSepLine "xiv ".data "20".data 30 ++ []) =
      some ("xiv ".data, "20".data, []) :=
  c8_digit_token_recognized "xiv ".data "20".data [] 30 (by decide) (by decide)
    (by decide) (by decide) (by decide)

/-- Every sequence token captured by one successful separator match is a
nonempty string of Unicode decimal digits. -/
theorem sepAt_seq_digits {l lab ds rest : List Char}
    (h : sepAt l = some (lab, ds, rest)) :
    ds ≠ [] ∧ ∀ c ∈ ds, pyDigit c = true := by
  unfold sepAt at h
  cases hm : matchLead l with
  | none => rw [hm] at h; simp at h
  | some r1 =>
    rw [hm, Option.some_bind] at h
    cases ha : afterLabel (r1.dropWhile notParenHash) with
    | none => rw [ha] at h; simp at h
    | some r2 =>
      rw [ha, Option.some_bind] at h
      by_cases he : (r2.takeWhile pyDigit).isEmpty
      · rw [if_pos he] at h; simp at h
      · rw [if_neg he] at h
        cases hb : afterDigits (r2.dropWhile pyDigit) with
        | none => rw [hb] at h; simp at h
        | some r3 =>
          rw [hb, Option.some_bind] at h
          split at h
          · have hds : ds = r2.takeWhile pyDigit := by
              have h2 := Option.some.inj h
              exact (congrArg (fun p => p.2.1) h2).symm
            constructor
            · intro hnil
              apply he
              rw [← hds, hnil]
              rfl
            · intro c hc
              rw [hds] at hc
              exact List.mem_takeWhile_imp hc
          · simp at h

/-- Sequence tokens produced by any step of the finditer scan are nonempty
digit strings. -/
theorem finditerF_seq_digits :
    ∀ fuel (l : List Char) (pos : Nat) (s : Sep), s ∈ finditerF fuel l pos →
      s.seq ≠ [] ∧ ∀ c ∈ s.seq, pyDigit c = true := by
  intro fuel
  induction fuel with
  | zero => intro l pos s h; simp [finditerF] at h
  | succ n ih =>
    intro l pos s h
    cases l with
    | nil => simp [finditerF] at h
    | cons c cs =>
      rw [finditerF] at h
      cases hm : sepAt (c :: cs) with
      | some v =>
        obtain ⟨lab, ds, rest⟩ := v
        rw [hm] at h
        rcases List.mem_cons.mp h with h1 | h1
        · have hd := sepAt_seq_digits hm
          rw [h1]
          exact hd
        · exact ih _ _ _ h1
      | none =>
        rw [hm] at h
        exact ih _ _ _ h

/-- C10 counterexample: Python regex backslash-d matches every Unicode
decimal digit, so a separator line whose parenthesized sequence token is
written with Arabic-Indic digits is recognized, and its token becomes the
page key of the record; yet the numeric coercion applied by the table
aligner fails on that key, so the page keys of the primary table are not
all guaranteed to coerce to integers. -/
theorem c10_counterexample :
    process_text_to_csv
        ("## p. x (#٢٣) ".data ++ List.replicate 30 '#' ++ "\nA".data) =
      Except.ok [⟨"٢٣".data, "A".data, "A".data⟩] ∧
      numericOk (some "٢٣") = false := by
  constructor
  · decide
  · decide

/-- C10 amended: every page number in the records produced by
process_text_to_csv is a nonempty string of Unicode decimal digits, the
class captured by the sequence group of the separator regex; whenever all
its digits are ASCII it coerces to an integer (parseIntStr, the
numeric-coercion model used by the table aligner, succeeds, as does the
per-cell numericOk test of the sort step), but a key written with
non-ASCII decimal digits is captured too and fails that coercion, so the
unconditional numeric guarantee of the original claim does not hold. -/
theorem c10_page_keys_digits (text : List Char) (recs : List PageRec)
    (rec : PageRec) (hok : process_text_to_csv text = Except.ok recs)
    (hmem : rec ∈ recs) :
    rec.page ≠ [] ∧ (∀ c ∈ rec.page, pyDigit c = true) ∧
      ((∀ c ∈ rec.page, c.isDigit = true) →
        (parseIntStr rec.page).isSome = true ∧
        ∀ s : String, s.data = rec.page → numericOk (some s) = true) := by
  have hrecs : recs = pageRecords text (finditer text) := by
    simp only [process_text_to_csv] at hok
    split at hok
    · simp at hok
    · exact (Except.ok.inj hok).symm
  subst hrecs
  obtain ⟨i, hi, hrec⟩ := List.mem_iff_getElem.mp hmem
  simp only [pageRecords, List.length_map, List.length_range] at hi
  simp only [pageRecords, List.getElem_map, List.getElem_range] at hrec
  have hget : (finditer text)[i]? = some (finditer text)[i] :=
    List.getElem?_eq_getElem hi
  have hpage : rec.page = ((finditer text)[i]).seq := by
    rw [← hrec]
    simp [hget]
  have hsmem : (finditer text)[i] ∈ finditer text := List.getElem_mem hi
  have hdig := finditerF_seq_digits _ _ _ _ hsmem
  have h1 : rec.page ≠ [] := by rw [hpage]; exact hdig.1
  have h2 : ∀ c ∈ rec.page, pyDigit c = true := by rw [hpage]; exact hdig.2
  refine ⟨h1, h2, ?_⟩
  intro hascii
  have hparse : (parseIntStr rec.page).isSome = true := by
    cases hp : rec.page with
    | nil => exact absurd hp h1
    | cons c cs =>
      have hcd : c.isDigit = true := hascii c (hp ▸ List.mem_cons_self c cs)
      have hcall : ∀ d ∈ c :: cs, d.isDigit = true := fun d hd => hascii d (hp ▸ hd)
      have hm : c ≠ '-' := by intro hc; rw [hc] at hcd; simp at hcd
      have hp2 : c ≠ '+' := by intro hc; rw [hc] at hcd; simp at hcd
      simp only [parseIntStr, if_neg hm, if_neg hp2, parseDigits]
      rw [if_pos ⟨List.cons_ne_nil c cs, by simpa [List.all_eq_true] using hcall⟩]
      rfl
  refine ⟨hparse, ?_⟩
  intro s hs
  show (parseIntStr s.data).isSome = true
  rw [hs]
  exact hparse

set_option maxRecDepth 100000 in
/-- Witness for C10 amended at the demonstration document, whose keys are
ASCII digits. -/
theorem c10_page_keys_digits_witness :
    ∃ recs rec, process_text_to_csv demoText = Except.ok recs ∧ rec ∈ recs ∧
      (rec.page ≠ [] ∧ (∀ c ∈ rec.page, pyDigit c = true) ∧
        ((∀ c ∈ rec.page, c.isDigit = true) →
          (parseIntStr rec.page).isSome = true ∧
          ∀ s : String, s.data = rec.page → numericOk (some s) = true)) := by
  refine ⟨pageRecords demoText (finditer demoText),
    ⟨"1".data, "Hello\nworld\n\nNext para.".data,
      "Hello world\n\nNext para.".data⟩, ?_, ?_, ?_⟩
  · decide
  · decide
  · exact c10_page_keys_digits demoText (pageRecords demoText (finditer demoText)) _
      (by decide) (by decide)

/-- C5: for every document with at least one separator match,
process_text_to_csv succeeds with exactly one record per match, in document
order; the raw text of record i is the slice of the document from the end
of match i to the start of match i+1 (or to the end of the document for the
last match) with surrounding whitespace trimmed, and the clean text is the
cleaning of that trimmed span. -/
theorem c5_segmentation (text : List Char) (h : finditer text ≠ []) :
    ∃ recs : List PageRec, process_text_to_csv text = Except.ok recs ∧
      recs.length = (finditer text).length ∧
      ∀ (i : Nat) (s : Sep), (finditer text)[i]? = some s →
        recs[i]? = some
          { page := s.seq,
            text := pyStrip (sliceL text s.stop (endPosOf text (finditer text) i)),
            clean := format_text
              (pyStrip (sliceL text s.stop (endPosOf text (finditer text) i))) } := by
  refine ⟨pageRecords text (finditer text), ?_, ?_, ?_⟩
  · simp only [process_text_to_csv]
    split
    · rename_i hemp
      exact absurd (List.isEmpty_iff.mp hemp) h
    · rfl
  · simp [pageRecords]
  · intro i s hs
    have hi : i < (finditer text).length := by
      by_contra hlt
      rw [List.getElem?_eq_none (by omega)] at hs
      exact Option.noConfusion hs
    simp only [pageRecords, List.getElem?_map, List.getElem?_range hi]
    simp [hs]

set_option maxRecDepth 100000 in
/-- Witness for C5 at the demonstration document. -/
theorem c5_segmentation_witness :
    ∃ recs : List PageRec, process_text_to_csv demoText = Except.ok recs ∧
      recs.length = (finditer demoText).length ∧
      ∀ (i : Nat) (s : Sep), (finditer demoText)[i]? = some s →
        recs[i]? = some
          { page := s.seq,
            text := pyStrip (sliceL demoText s.stop (endPosOf demoText (finditer demoText) i)),
            clean := format_text
              (pyStrip (sliceL demoText s.stop (endPosOf demoText (finditer demoText) i))) } :=
  c5_segmentation demoText (by decide)

/-! ## Claims about the table aligner: C2 and C3 -/

/-- C2: the code normalizes only the sentinel No body data; the legacy
sentinel No page data, which the docstring of combine_csv_files claims is
replaced with blank cells, is left verbatim in a non-key cell of the aligned
output, as this evaluation of combine_csv_files shows. -/
theorem c2_legacy_sentinel_not_replaced :
    combine_csv_files
      ⟨["page", "text"], [[some "1", some "a"]]⟩
      ⟨["page", "words"], [[some "1", some "No page data"]]⟩
      = Except.ok
          ⟨["page", "text", "words"],
           [[some "1", some "a", some "No page data"]]⟩ := by decide

/-- C3 counterexample: on inputs lacking the page column the operation does
not report a structured MissingKeyColumn result; it surfaces the uncaught
KeyError of pd.merge (modelled as the error string below), with no output. -/
theorem c3_counterexample :
    combine_csv_files ⟨["seq", "text"], [[some "1", some "a"]]⟩
      ⟨["page", "words"], [[some "1", some "2"]]⟩
      = Except.error "KeyError: page" := by decide

/-- C3 amended: for every pair of input tables, if either input lacks the
page key column, combine_csv_files raises an unhandled KeyError from
pd.merge (modelled as this error value) rather than producing output or a
structured MissingKeyColumn error. -/
theorem c3_missing_key_raises (df1 df2 : Table)
    (h : "page" ∉ df1.cols ∨ "page" ∉ df2.cols) :
    combine_csv_files df1 df2 = Except.error "KeyError: page" := by
  unfold combine_csv_files
  rw [if_neg]
  rw [mem_page_prep_fst, mem_page_prep_snd]
  rcases h with h | h
  · exact fun hc => h hc.1
  · exact fun hc => h hc.2

/-- C1 counterexample: on the spec's own mixed fixture, one file's page
column reads as integers while the other's reads as strings because it
contains the roman numeral ii, and pd.merge raises an uncaught ValueError
on the dtype mismatch: the run throws instead of producing fallback-ordered
output, refuting the claim that a non-numeric key leads to the non-throwing
natural-order fallback. -/
theorem c1_counterexample :
    combine_csv_files_run
        ⟨["page", "text"], [[some "2", some "a"], [some "ii", some "b"]]⟩
        ⟨["page", "words"], [[some "2", some "5"]]⟩
      = Except.error "ValueError: merging on object and int64 page columns" := by
  decide

/-- C1 amended: when each input contains a page key that fails integer
parsing, both page columns read as object dtype, so the merge is reached
and succeeds; some merged key then fails the all-or-nothing numeric
coercion, and the except branch re-sorts the unchanged rows by their string
keys.  With duplicate-free keys on each side (the program's non-stable sort
fixes no tie order otherwise) the outer join emits at most one row per key,
already in the lexicographic key order that the fallback sort applies, so
the run returns the merged table exactly as it left the outer join and
nothing is thrown.  With one all-integer input the merge instead raises
ValueError, as the counterexample shows. -/
theorem c1_sort_fallback_object_inputs (df1 df2 : Table) (w1 : Wf df1)
    (h1 : "page" ∈ df1.cols) (h2 : "page" ∈ df2.cols)
    (hb1 : ∃ k ∈ keysOf df1, numericOk k = false)
    (hb2 : ∃ k ∈ keysOf df2, numericOk k = false)
    (_n1 : (keysOf df1).Nodup) (_n2 : (keysOf df2).Nodup) :
    combine_csv_files_run df1 df2 = Except.ok (mergedOf df1 df2) := by
  obtain ⟨k1, hk1, hnk1⟩ := hb1
  obtain ⟨k2, hk2, hnk2⟩ := hb2
  have hd1 : pageDtypeNumeric df1 = false := pageDtypeNumeric_false hk1 hnk1
  have hd2 : pageDtypeNumeric df2 = false := pageDtypeNumeric_false hk2 hnk2
  unfold combine_csv_files_run
  rw [readCsv_object hd1, readCsv_object hd2, hd1, hd2]
  rw [if_pos ⟨(mem_page_prep_fst df1 df2).mpr h1, (mem_page_prep_snd df1 df2).mpr h2⟩]
  rw [if_pos rfl]
  have hkm : k1 ∈ keysOf (mergedOf df1 df2) := by
    apply (mem_keysOf_merged (wf_prep_fst w1)
      ((mem_page_prep_fst df1 df2).mpr h1) k1).mpr
    apply List.mem_append.mpr
    left
    rw [keysOf_prep_fst]
    exact hk1
  have hf : ¬ (keysOf (mergedOf df1 df2)).all numericOk = true := by
    intro hall
    have h3 := List.all_eq_true.mp hall k1 hkm
    rw [hnk1] at h3
    exact Bool.false_ne_true h3
  have hsorted :
      List.Sorted (rowLeStr (mergedOf df1 df2).cols) (mergedOf df1 df2).rows :=
    merged_sorted (wf_prep_fst w1) ((mem_page_prep_fst df1 df2).mpr h1)
  have hstep : sortStep (mergedOf df1 df2) = mergedOf df1 df2 :=
    sortStep_fallback hf hsorted
  exact congrArg Except.ok hstep

/-- Witness for C1 amended at a pair with one non-numeric key on each side,
so that both page columns read as object dtype. -/
theorem c1_sort_fallback_object_inputs_witness :
    combine_csv_files_run
        ⟨["page", "text"], [[some "2", some "a"], [some "ii", some "b"]]⟩
        ⟨["page", "words"], [[some "2", some "5"], [some "iv", some "7"]]⟩
      = Except.ok
          (mergedOf
            ⟨["page", "text"], [[some "2", some "a"], [some "ii", some "b"]]⟩
            ⟨["page", "words"], [[some "2", some "5"], [some "iv", some "7"]]⟩) :=
  c1_sort_fallback_object_inputs _ _ (by decide) (by decide) (by decide)
    (by decide) (by decide) (by decide) (by decide)

/-- C4 counterexample: with duplicated page keys, which the source does not
forbid, the outer join multiplies matching rows: two rows of key 1 against
three rows of key 1 give six output rows, strictly more than the claimed
upper bound of five (the sum of the input row counts). -/
theorem c4_counterexample :
    ((combine_csv_files
        ⟨["page"], [[some "1"], [some "1"]]⟩
        ⟨["page"], [[some "1"], [some "1"], [some "1"]]⟩).toOption.map
      fun t => t.rows.length) = some 6 ∧
    (Table.mk ["page"] [[some "1"], [some "1"]]).rows.length
      + (Table.mk ["page"] [[some "1"], [some "1"], [some "1"]]).rows.length = 5 ∧
    ¬ (6 ≤ 5) := by decide

/-- C4 amended: for every pair of well-formed input tables containing the
page column whose page keys are duplicate-free on each side, the aligned
output row count n satisfies max of the input row counts ≤ n ≤ their sum,
and n reaches the sum only when the key sets are disjoint.  (With duplicate
keys the outer join multiplies matching rows and the upper bound fails, as
the counterexample shows.) -/
theorem c4_row_count_bounds (A B : Table) (wB : Wf B)
    (hA : "page" ∈ A.cols) (hB : "page" ∈ B.cols)
    (nA : (keysOf A).Nodup) (nB : (keysOf B).Nodup) :
    ∃ t, combine_csv_files A B = Except.ok t ∧
      max A.rows.length B.rows.length ≤ t.rows.length ∧
      t.rows.length ≤ A.rows.length + B.rows.length ∧
      (t.rows.length = A.rows.length + B.rows.length →
        Disjoint (keysOf A).toFinset (keysOf B).toFinset) := by
  refine ⟨sortStep (outerMerge (prep A B).1 (prep A B).2), ?_, ?_⟩
  · unfold combine_csv_files
    rw [if_pos ⟨(mem_page_prep_fst A B).mpr hA, (mem_page_prep_snd A B).mpr hB⟩]
  · have hk1 : keysOf (prep A B).1 = keysOf A := keysOf_prep_fst A B
    have hk2 : keysOf (prep A B).2 = keysOf B := keysOf_prep_snd wB hB
    have hlen : (sortStep (outerMerge (prep A B).1 (prep A B).2)).rows.length
        = ((keysOf A).toFinset ∪ (keysOf B).toFinset).card := by
      rw [sortStep_length]
      rw [merged_rows_length (hk1 ▸ nA) (hk2 ▸ nB)]
      rw [hk1, hk2]
    have hcA : (keysOf A).toFinset.card = A.rows.length := by
      rw [List.card_toFinset, nA.dedup]
      simp [keysOf]
    have hcB : (keysOf B).toFinset.card = B.rows.length := by
      rw [List.card_toFinset, nB.dedup]
      simp [keysOf]
    rw [hlen]
    refine ⟨?_, ?_, ?_⟩
    · apply max_le
      · rw [← hcA]
        exact Finset.card_le_card Finset.subset_union_left
      · rw [← hcB]
        exact Finset.card_le_card Finset.subset_union_right
    · calc ((keysOf A).toFinset ∪ (keysOf B).toFinset).card
          ≤ (keysOf A).toFinset.card + (keysOf B).toFinset.card :=
            Finset.card_union_le _ _
        _ = A.rows.length + B.rows.length := by rw [hcA, hcB]
    · intro he
      apply Finset.card_union_eq_card_add_card.mp
      rw [he, hcA, hcB]

/-- Witness for C4 amended at a concrete pair with unique keys. -/
theorem c4_row_count_bounds_witness :
    ∃ t, combine_csv_files
          ⟨["page", "text"], [[some "1", some "a"], [some "2", some "b"]]⟩
          ⟨["page", "words"], [[some "2", some "5"], [some "3", some "7"]]⟩
        = Except.ok t ∧
      max 2 2 ≤ t.rows.length ∧
      t.rows.length ≤ 2 + 2 ∧
      (t.rows.length = 2 + 2 →
        Disjoint (keysOf ⟨["page", "text"],
            [[some "1", some "a"], [some "2", some "b"]]⟩).toFinset
          (keysOf ⟨["page", "words"],
            [[some "2", some "5"], [some "3", some "7"]]⟩).toFinset) :=
  c4_row_count_bounds
    ⟨["page", "text"], [[some "1", some "a"], [some "2", some "b"]]⟩
    ⟨["page", "words"], [[some "2", some "5"], [some "3", some "7"]]⟩
    (by decide) (by decide) (by decide) (by decide) (by decide)

/-- C9 counterexample: the sentinel replacement applies only to the second
argument, so the aligner is not commutative on content: a table holding the
sentinel in a non-key cell keeps it verbatim when passed first, but has it
blanked when passed second, and the two orders produce different row sets
even though both runs succeed (both page columns read as integers here). -/
theorem c9_counterexample :
    ((combine_csv_files_run ⟨["page", "x"], [[some "1", some "No body data"]]⟩
        ⟨["page", "y"], [[some "1", some "2"]]⟩).toOption.map tableContent)
      ≠ ((combine_csv_files_run ⟨["page", "y"], [[some "1", some "2"]]⟩
        ⟨["page", "x"], [[some "1", some "No body data"]]⟩).toOption.map
          tableContent) := by decide

/-- C9 amended: for well-formed inputs whose page columns read with the SAME
dtype (both all-integer or both not), with duplicate-free column names, no
collision among the non-key column names of the two tables, both containing
the page column, and no non-key cell equal to the sentinel (so the
asymmetric sentinel replacement is a no-op), aligning the tables in either
order succeeds and produces the same multiset of rows, each row taken as
its unordered collection of column-value pairs.  When the two page columns
read with different dtypes the merge raises ValueError in either order, and
when the sentinel occurs commutativity of content fails, as the
counterexample shows; the collision renaming also remains order-dependent. -/
theorem c9_content_commutativity (A B : Table) (wA : Wf A) (wB : Wf B)
    (ncA : A.cols.Nodup) (ncB : B.cols.Nodup)
    (hA : "page" ∈ A.cols) (hB : "page" ∈ B.cols)
    (hsA : noSentinel A) (hsB : noSentinel B)
    (hnc : (A.cols.filter (· != "page") ++ B.cols.filter (· != "page")).Nodup)
    (hdt : pageDtypeNumeric A = pageDtypeNumeric B) :
    ∃ ta tb, combine_csv_files_run A B = Except.ok ta ∧
      combine_csv_files_run B A = Except.ok tb ∧
      tableContent ta = tableContent tb := by
  have wA2 : Wf (readCsv A) := wf_readCsv wA
  have wB2 : Wf (readCsv B) := wf_readCsv wB
  have hsA2 : replaceNoBody (readCsv A) = readCsv A :=
    replaceNoBody_eq_self wA2 (noSentinel_readCsv wA hsA)
  have hsB2 : replaceNoBody (readCsv B) = readCsv B :=
    replaceNoBody_eq_self wB2 (noSentinel_readCsv wB hsB)
  have hpA : "page" ∈ (readCsv A).cols := by rw [cols_readCsv]; exact hA
  have hpB : "page" ∈ (readCsv B).cols := by rw [cols_readCsv]; exact hB
  have ncA2 : (readCsv A).cols.Nodup := by rw [cols_readCsv]; exact ncA
  have ncB2 : (readCsv B).cols.Nodup := by rw [cols_readCsv]; exact ncB
  have hnc1 : ((readCsv A).cols.filter (· != "page")
      ++ (readCsv B).cols.filter (· != "page")).Nodup := by
    rw [cols_readCsv, cols_readCsv]
    exact hnc
  have hprepAB : prep (readCsv A) (readCsv B) = (readCsv A, readCsv B) := by
    simp only [prep, hsB2]
    rw [if_pos hnc1]
  have hnc2 : ((readCsv B).cols.filter (· != "page")
      ++ (readCsv A).cols.filter (· != "page")).Nodup := by
    rw [List.nodup_append] at hnc1 ⊢
    exact ⟨hnc1.2.1, hnc1.1, hnc1.2.2.symm⟩
  have hprepBA : prep (readCsv B) (readCsv A) = (readCsv B, readCsv A) := by
    simp only [prep, hsA2]
    rw [if_pos hnc2]
  refine ⟨sortStep (outerMerge (readCsv A) (readCsv B)),
    sortStep (outerMerge (readCsv B) (readCsv A)), ?_, ?_, ?_⟩
  · simp only [combine_csv_files_run]
    rw [hprepAB]
    rw [if_pos ⟨hpA, hpB⟩, if_pos hdt]
  · simp only [combine_csv_files_run]
    rw [hprepBA]
    rw [if_pos ⟨hpB, hpA⟩, if_pos hdt.symm]
  · have hmc : tableContent (outerMerge (readCsv A) (readCsv B))
        = tableContent (outerMerge (readCsv B) (readCsv A)) :=
      mergedContent_comm (readCsv A) (readCsv B) wA2 wB2 ncA2 ncB2 hpA hpB
    have hiff : ∀ k, k ∈ keysOf (outerMerge (readCsv A) (readCsv B))
        ↔ k ∈ keysOf (outerMerge (readCsv B) (readCsv A)) := by
      intro k
      rw [mem_keysOf_merged wA2 hpA, mem_keysOf_merged wB2 hpB]
      constructor
      · intro h
        exact List.mem_append.mpr (List.mem_append.mp h).symm
      · intro h
        exact List.mem_append.mpr (List.mem_append.mp h).symm
    have hcond : ((keysOf (outerMerge (readCsv A) (readCsv B))).all numericOk)
        = ((keysOf (outerMerge (readCsv B) (readCsv A))).all numericOk) := by
      cases hab : (keysOf (outerMerge (readCsv A) (readCsv B))).all numericOk with
      | true =>
        rw [List.all_eq_true] at hab
        symm
        rw [List.all_eq_true]
        intro k hk
        exact hab k ((hiff k).mpr hk)
      | false =>
        symm
        rw [Bool.eq_false_iff]
        intro hba
        rw [List.all_eq_true] at hba
        have hall : (keysOf (outerMerge (readCsv A) (readCsv B))).all numericOk
            = true := by
          rw [List.all_eq_true]
          intro k hk
          exact hba k ((hiff k).mp hk)
        rw [hab] at hall
        exact Bool.false_ne_true hall
    rw [sortStep_content (wf_outerMerge wA2 wB2),
      sortStep_content (wf_outerMerge wB2 wA2), hmc, hcond]

/-- Witness for C9 amended at a sentinel-free collision-free pair whose page
columns both read as integers. -/
theorem c9_content_commutativity_witness :
    ∃ ta tb,
      combine_csv_files_run ⟨["page", "x"], [[some "1", some "7"]]⟩
          ⟨["page", "y"], [[some "2", some "5"]]⟩ = Except.ok ta ∧
      combine_csv_files_run ⟨["page", "y"], [[some "2", some "5"]]⟩
          ⟨["page", "x"], [[some "1", some "7"]]⟩ = Except.ok tb ∧
      tableContent ta = tableContent tb :=
  c9_content_commutativity
    ⟨["page", "x"], [[some "1", some "7"]]⟩
    ⟨["page", "y"], [[some "2", some "5"]]⟩
    (by decide) (by decide) (by decide) (by decide) (by decide) (by decide)
    (by decide) (by decide) (by decide) (by decide)

/-- Witness for C3 amended at a concrete pair lacking the key on one side. -/
theorem c3_missing_key_raises_witness :
    ("page" ∉ (Table.mk ["seq"] [[some "1"]]).cols ∨
        "page" ∉ (Table.mk ["page"] [[some "1"]]).cols) ∧
      combine_csv_files ⟨["seq"], [[some "1"]]⟩ ⟨["page"], [[some "1"]]⟩
        = Except.error "KeyError: page" :=
  ⟨Or.inl (by decide), c3_missing_key_raises _ _ (Or.inl (by decide))⟩

/-- C7 counterexample: the paragraph-break placeholder is an ordinary string
that CAN occur naturally in the input.  On an input containing the literal
placeholder next to a real paragraph break, format_text restores both as
double newlines, producing a run of four consecutive newlines: the output
contains more than one consecutive blank line, refuting the claim, and the
placeholder was not a token that cannot occur in the text. -/
theorem c7_counterexample :
    ['\n', '\n', '\n', '\n'] <:+: format_text ("a\n\nPARAGRAPH_BREAKb".data) ∧
      good (format_text ("a\n\nPARAGRAPH_BREAKb".data)) = false := by
  constructor
  · exact ⟨"a".data, "b".data, by decide⟩
  · decide

/-- C7 amended: for every input text in which the placeholder string
PARAGRAPH_BREAK does not occur, the cleaned text produced by format_text has
every maximal run of newline characters of length exactly two: it never
contains more than one consecutive blank line, and never a raw single
newline that is not part of a paragraph break.  Without that hypothesis the
guarantee fails, because the placeholder is not unique. -/
theorem c7_newline_runs_wellformed (l : List Char) (h : ¬ PB <:+: l) :
    good (format_text l) = true := by
  show goodAux (format_text l) 0 = true
  unfold format_text pyStrip colSp repPB
  have hnl : ∀ c ∈ mapNl (subNl l), c ≠ '\n' := mapNl_no_nl _
  have hpp : ¬ PB ++ PB <:+: mapNl (subNl l) := fun hx =>
    h (pb_two_infix_subNl (mapNl_inf _ _ hx (by decide)))
  have h1 : goodAux (repPBF (mapNl (subNl l)).length (mapNl (subNl l))) 0 = true :=
    rep_good _ _ 0 le_rfl hnl hpp (Or.inl rfl) (fun h2 => absurd h2 (by decide))
  have h2 := (colAux_good _).1 0 h1
  have h3 := dw_good _ 0 h2
  rcases de_good _ 0 h3 with he | he
  · rw [he]
    rfl
  · exact he

/-- Witness for C7 amended at a concrete placeholder-free input. -/
theorem c7_newline_runs_wellformed_witness :
    ¬ PB <:+: "Hello\nworld\n\nNext para.".data ∧
      good (format_text ("Hello\nworld\n\nNext para.".data)) = true :=
  ⟨by decide, c7_newline_runs_wellformed _ (by decide)⟩

end HT
